import Mathlib

/-!
Verification of the message-comparison subsystem of a protobuf-style
reflection library.

The repository ships the public entry points (`proto.Compare`, `proto.LessThan`
and `boolCompare` in `compare.go`) together with an extensive behavioural test
suite (`compare_test.go`, `value_test.go`).  The recursive value-comparison
engine (`protoreflect.Value.Compare` and the message/list/map/unknown-field
comparators beneath it) is not part of the shipped sources, so it is modelled
here from the specification, with every modelling choice pinned by the test
suite.

The development proceeds in layers:
1. a small theory of three-valued integer comparators (`ord3`, `cmpSeq`,
   `lexCmpWith`, insertion sort by a comparator) and the `IsOrd3` predicate
   packaging antisymmetry, transitivity and range;
2. the `Value` data model and the fuelled comparison engine `cmpValueF`
   together with its stability, order and equality theorems;
3. a faithful model of `compare.go` (`Compare`, `LessThan`, `boolCompare`),
   including the possibility of a runtime panic in the identity short-circuit;
4. the claim theorems.
-/

namespace Pb

/-- Three-way comparison on a linear order, returning `-1`, `0` or `1`. -/
def ord3 {α : Type _} [LinearOrder α] (x y : α) : Int :=
  if x < y then -1 else if y < x then 1 else 0

/-- Sequential (lexicographic) combination of two comparison results:
the first result wins unless it is `0`. -/
def cmpSeq (a b : Int) : Int :=
  if a = 0 then b else a

/-- Lexicographic comparison of two lists by an element comparator:
first differing pair decides; a strict initial segment is smaller. -/
def lexCmpWith {α : Type _} (c : α → α → Int) : List α → List α → Int
  | [], [] => 0
  | [], _ :: _ => -1
  | _ :: _, [] => 1
  | a :: as, b :: bs => if c a b = 0 then lexCmpWith c as bs else c a b

/-- Pointwise equality of two lists by an element test (false on length
mismatch). -/
def eqListWith {α : Type _} (e : α → α → Bool) : List α → List α → Bool
  | [], [] => true
  | a :: as, b :: bs => e a b && eqListWith e as bs
  | _, _ => false

/-- Insert an element into a list so that elements comparing `≤ 0` stay to
the left. -/
def insertBy {α : Type _} (c : α → α → Int) (x : α) : List α → List α
  | [] => [x]
  | a :: as => if c x a ≤ 0 then x :: a :: as else a :: insertBy c x as

/-- Insertion sort by a three-way comparator. -/
def insertionSortBy {α : Type _} (c : α → α → Int) : List α → List α
  | [] => []
  | a :: as => insertBy c a (insertionSortBy c as)

/-- `IsOrd3 c` asserts that the integer comparator `c` is a total preorder
comparison: antisymmetric, transitive on the `≤ 0` relation, and valued in
`{-1, 0, 1}`. -/
structure IsOrd3 {α : Type _} (c : α → α → Int) : Prop where
  antisym : ∀ x y, c x y = -(c y x)
  letrans : ∀ x y z, c x y ≤ 0 → c y z ≤ 0 → c x z ≤ 0
  range : ∀ x y, c x y = -1 ∨ c x y = 0 ∨ c x y = 1

/-- Wire categories of undecoded (unknown) field entries, in their fixed
comparison order `varint < fixed32 < fixed64 < lengthDelimited < group`. -/
inductive WireType where
  | varint : WireType
  | fixed32 : WireType
  | fixed64 : WireType
  | lengthDelimited : WireType
  | group : WireType
deriving DecidableEq

/-- The comparison rank of a wire category. -/
def wireRank : WireType → Nat
  | .varint => 0
  | .fixed32 => 1
  | .fixed64 => 2
  | .lengthDelimited => 3
  | .group => 4

/-- One undecoded (unknown) field entry: field number, wire category and raw
payload bytes. -/
structure UnknownField where
  num : Nat
  wire : WireType
  payload : List Nat
deriving DecidableEq

/-- Modelled from the spec: the floating-point payloads relevant to the
comparator's total order (the engine that interprets them is not among the
shipped sources).  Only the ordering of doubles matters here: `nan` is a
single value that compares equal to itself and below everything else, the
infinities sit at the ends, and every other double is a finite rational.
`-0.0` and `0.0` denote the same rational, matching IEEE `==`/`<` semantics
used for the non-NaN cases. -/
inductive FloatV where
  | nan : FloatV
  | negInf : FloatV
  | finite : ℚ → FloatV
  | posInf : FloatV
deriving DecidableEq

/-- Rank of a float value in the non-IEEE total order: NaN below everything,
then negative infinity, the finite values, and positive infinity. -/
def floatRank : FloatV → Nat
  | .nan => 0
  | .negInf => 1
  | .finite _ => 2
  | .posInf => 3

/-- Modelled from the spec: total order on floating-point values — NaN equal
to NaN and less than every other value including negative infinity, ordinary
IEEE ordering otherwise. -/
def cmpFloat (x y : FloatV) : Int :=
  cmpSeq (ord3 (floatRank x) (floatRank y))
    (match x, y with
     | .finite a, .finite b => ord3 a b
     | _, _ => 0)

/-- Modelled from the spec: comparison of two undecoded field entries —
ascending field number, then ascending wire-category rank, then byte-wise
payload comparison with the shorter-payload-is-less rule. -/
def cmpUnknownEntry (e f : UnknownField) : Int :=
  cmpSeq (ord3 e.num f.num)
    (cmpSeq (ord3 (wireRank e.wire) (wireRank f.wire))
      (lexCmpWith ord3 e.payload f.payload))

/-- The tagged-union value model of the reflection layer (spec §3): each
variant carries exactly one payload; 32-bit integer and float kinds are
already widened to their 64-bit comparison form.  A message value carries its
full type name (as a byte sequence), its present fields in ascending
field-number order, and its undecoded-field entries. -/
inductive Value where
  | invalid : Value
  | boolV : Bool → Value
  | intV : Int → Value
  | uintV : Nat → Value
  | floatV : FloatV → Value
  | textV : List Nat → Value
  | bytesV : List Nat → Value
  | enumV : Int → Value
  | listV : List Value → Value
  | mapV : List (Value × Value) → Value
  | msgV : List Nat → List (Nat × Value) → List UnknownField → Value

/-- Cross-kind precedence rank (spec §4.1):
`Invalid < Bool < Int < Uint < Float < Text < Bytes < Enum < List < Map < Msg`. -/
def kindRank : Value → Nat
  | .invalid => 0
  | .boolV _ => 1
  | .intV _ => 2
  | .uintV _ => 3
  | .floatV _ => 4
  | .textV _ => 5
  | .bytesV _ => 6
  | .enumV _ => 7
  | .listV _ => 8
  | .mapV _ => 9
  | .msgV _ _ _ => 10

/-- Comparator on one present field: ascending field number first, then the
field's value. -/
def cmpFieldEntry (c : Value → Value → Int) (p q : Nat × Value) : Int :=
  cmpSeq (ord3 p.1 q.1) (c p.2 q.2)

/-- Comparator on one map entry: key first, value only on key tie. -/
def cmpMapEntry (c : Value → Value → Int) (p q : Value × Value) : Int :=
  cmpSeq (c p.1 q.1) (c p.2 q.2)

/-- Key-only comparator on map entries, used to canonicalize a map. -/
def cmpEntryKey (c : Value → Value → Int) (p q : Value × Value) : Int :=
  c p.1 q.1

/-- Sequence comparison as the engine performs it on lists (pinned by
`compare_test.go` lines 1657-1666, where `[7]` compares less than `[1, 2]`):
the sequence with fewer elements is less; sequences of equal length compare
pairwise at increasing index. -/
def cmpSeqLen {α : Type _} (c : α → α → Int) (a b : List α) : Int :=
  cmpSeq (ord3 a.length b.length) (lexCmpWith c a b)

/-- Comparator on the three components of a message (spec §4.2): full type
name first, then the present-field sequence, then the undecoded-field
entries. -/
def cmpMsgParts (c : Value → Value → Int)
    (p q : List Nat × List (Nat × Value) × List UnknownField) : Int :=
  cmpSeq (lexCmpWith ord3 p.1 q.1)
    (cmpSeq (lexCmpWith (cmpFieldEntry c) p.2.1 q.2.1)
      (lexCmpWith cmpUnknownEntry p.2.2 q.2.2))

/-- Same-kind payload comparison at one recursion level: `c` compares the
component values one level down. -/
def cmpPayloadWith (c : Value → Value → Int) : Value → Value → Int
  | .boolV a, .boolV b => ord3 a b
  | .intV a, .intV b => ord3 a b
  | .uintV a, .uintV b => ord3 a b
  | .floatV a, .floatV b => cmpFloat a b
  | .textV a, .textV b => lexCmpWith ord3 a b
  | .bytesV a, .bytesV b => lexCmpWith ord3 a b
  | .enumV a, .enumV b => ord3 a b
  | .listV a, .listV b => cmpSeqLen c a b
  | .mapV a, .mapV b =>
      lexCmpWith (cmpMapEntry c)
        (insertionSortBy (cmpEntryKey c) a) (insertionSortBy (cmpEntryKey c) b)
  | .msgV nx fx ux, .msgV ny fy uy => cmpMsgParts c (nx, fx, ux) (ny, fy, uy)
  | _, _ => 0

/-- Modelled from the spec: the recursive value-comparison engine
(`protoreflect.Value.Compare` and the message/list/map comparators beneath
it), which is not among the shipped sources.  The recursion is bounded by an
explicit fuel parameter; `cmpValue` below instantiates the fuel so that it
never runs out.  Structure (pinned by `compare_test.go` and
`value_test.go`):
- two values of different kinds compare by `kindRank`;
- scalars compare by their payload rule (spec §4.6);
- lists compare by length first (fewer elements is less), then pairwise
  element by element;
- maps are canonicalized by sorting entries by key, then compared as entry
  sequences (key first, value on key tie);
- messages compare by full type name, then by the sequence of present fields
  in ascending field-number order (field number first at each position, then
  the value), then by the undecoded-field entries. -/
def cmpValueF : Nat → Value → Value → Int
  | 0, _, _ => 0
  | n + 1, x, y =>
      cmpSeq (ord3 (kindRank x) (kindRank y)) (cmpPayloadWith (cmpValueF n) x y)

/-- Equality test on undecoded field entries. -/
def eqUnknownEntry (e f : UnknownField) : Bool :=
  decide (e = f)

/-- Same-kind payload structural-equality test at one recursion level:
`e` tests component values, `c` compares map keys for canonicalization. -/
def eqPayloadWith (c : Value → Value → Int) (e : Value → Value → Bool) :
    Value → Value → Bool
  | .invalid, .invalid => true
  | .boolV a, .boolV b => decide (a = b)
  | .intV a, .intV b => decide (a = b)
  | .uintV a, .uintV b => decide (a = b)
  | .floatV a, .floatV b => decide (a = b)
  | .textV a, .textV b => decide (a = b)
  | .bytesV a, .bytesV b => decide (a = b)
  | .enumV a, .enumV b => decide (a = b)
  | .listV a, .listV b => eqListWith e a b
  | .mapV a, .mapV b =>
      eqListWith (fun p q => e p.1 q.1 && e p.2 q.2)
        (insertionSortBy (cmpEntryKey c) a) (insertionSortBy (cmpEntryKey c) b)
  | .msgV nx fx ux, .msgV ny fy uy =>
      decide (nx = ny) &&
        eqListWith (fun p q => decide (p.1 = q.1) && e p.2 q.2) fx fy &&
        eqListWith eqUnknownEntry ux uy
  | _, _ => false

/-- Modelled from the spec: the structural-equality predicate on values that
`proto.Equal` computes (its implementation is likewise not among the shipped
sources).  It mirrors the comparator: same kind, equal scalar payloads (with
NaN equal to NaN), pointwise-equal lists, maps equal as canonically
key-sorted entry sequences (maps have unique keys, so this coincides with
the order-insensitive lookup-based equality `proto.Equal` performs), and
messages equal when their names, present-field sequences and undecoded-field
entries agree. -/
def eqValueF : Nat → Value → Value → Bool
  | 0, _, _ => true
  | n + 1, x, y =>
      decide (kindRank x = kindRank y) && eqPayloadWith (cmpValueF n) (eqValueF n) x y

mutual

/-- Size measure of a value, used to instantiate the engine's fuel. -/
def vsize : Value → Nat
  | .invalid => 1
  | .boolV _ => 1
  | .intV _ => 1
  | .uintV _ => 1
  | .floatV _ => 1
  | .textV _ => 1
  | .bytesV _ => 1
  | .enumV _ => 1
  | .listV l => 1 + vsizeList l
  | .mapV es => 1 + vsizeEntries es
  | .msgV _ fs _ => 1 + vsizeFields fs

/-- Total size of a list of values. -/
def vsizeList : List Value → Nat
  | [] => 0
  | v :: vs => vsize v + vsizeList vs

/-- Total size of a list of map entries. -/
def vsizeEntries : List (Value × Value) → Nat
  | [] => 0
  | p :: es => vsize p.1 + vsize p.2 + vsizeEntries es

/-- Total size of a list of fields. -/
def vsizeFields : List (Nat × Value) → Nat
  | [] => 0
  | p :: fs => vsize p.2 + vsizeFields fs

end

/-- The value comparator: the fuelled engine run with enough fuel to fully
explore both arguments. -/
def cmpValue (x y : Value) : Int :=
  cmpValueF (vsize x + vsize y) x y

/-- The value structural-equality predicate, with the same fuel as
`cmpValue`. -/
def eqValue (x y : Value) : Bool :=
  eqValueF (vsize x + vsize y) x y

/-- Faithful model of `boolCompare` from `compare.go`: `0` on equal booleans,
`-1` when the first is false, `1` otherwise. -/
def boolCompare (x y : Bool) : Int :=
  if x = y then 0 else if x = false then -1 else 1

/-- The dynamic Go type of a value implementing the `Message` interface:
an identity, whether its reflect kind is pointer, and whether values of the
type support the `==` operator (struct types embedding a `DoNotCompare`
field do not). -/
structure GoType where
  id : Nat
  isPtr : Bool
  comparable : Bool
deriving DecidableEq

/-- A non-nil Go value implementing the `Message` interface: its dynamic
type, the identity of the underlying object, and the result of
`ProtoReflect()` — a validity flag plus the reflected message's full type
name, present fields (ascending by field number) and undecoded-field
entries. -/
structure GoMessage where
  ty : GoType
  objId : Nat
  valid : Bool
  reflName : List Nat
  reflFields : List (Nat × Value)
  reflUnknown : List UnknownField

/-- The reflected message of a handle, as a `Value`
(`protoreflect.ValueOfMessage(m.ProtoReflect())`). -/
def reflValue (g : GoMessage) : Value :=
  .msgV g.reflName g.reflFields g.reflUnknown

/-- Go interface equality `x == y` on two non-nil `Message` values:
`false` when the dynamic types differ; a panic (`none`) when the dynamic
types agree but are incomparable; object identity otherwise. -/
def ifaceEq (x y : GoMessage) : Option Bool :=
  if x.ty = y.ty then
    if x.ty.comparable then some (decide (x.objId = y.objId)) else none
  else some false

/-- The body of `Compare` after the nil and identity checks: compare
`IsValid()` flags via `boolCompare` and return that result if nonzero,
otherwise compare the two reflected values. -/
def compareBody (gx gy : GoMessage) : Int :=
  let validCmp := boolCompare gx.valid gy.valid
  if validCmp ≠ 0 then validCmp else cmpValue (reflValue gx) (reflValue gy)

/-- Faithful model of `Compare` from `compare.go`.  A `none` argument is a
nil `proto.Message` interface value; a `none` result models a runtime panic
(which the guarded identity short-circuit is designed never to trigger):
```
if x == nil || y == nil { return boolCompare(x != nil, y != nil) }
if reflect.TypeOf(x).Kind() == reflect.Ptr && x == y { return 0 }
mx := x.ProtoReflect(); my := y.ProtoReflect()
if validCmp := boolCompare(mx.IsValid(), my.IsValid()); validCmp != 0 { return validCmp }
return protoreflect.ValueOfMessage(mx).Compare(protoreflect.ValueOfMessage(my))
``` -/
def Compare : Option GoMessage → Option GoMessage → Option Int
  | none, none => some (boolCompare false false)
  | none, some _ => some (boolCompare false true)
  | some _, none => some (boolCompare true false)
  | some gx, some gy =>
      if gx.ty.isPtr = true then
        match ifaceEq gx gy with
        | none => none
        | some true => some 0
        | some false => some (compareBody gx gy)
      else some (compareBody gx gy)

/-- Faithful model of `LessThan` from `compare.go`:
`Compare(x, y) == -1`. -/
def LessThan (x y : Option GoMessage) : Option Bool :=
  (Compare x y).map (fun r => decide (r = -1))

/-- The comparison algorithm without the identity short-circuit (and hence
without any possibility of a panic): nil handling, validity comparison, then
full value comparison. -/
def ComparePlain : Option GoMessage → Option GoMessage → Int
  | none, none => 0
  | none, some _ => -1
  | some _, none => 1
  | some gx, some gy => compareBody gx gy

/-- Runtime invariants `compare.go` relies on, stated for an ordered pair of
handles: a pointer-kind dynamic type supports `==` (true of every Go pointer
type), and two handles of identical dynamic type and identical object
identity are views of the same object, hence have the same validity and
reflect to the same message. -/
def GoodPair (gx gy : GoMessage) : Prop :=
  (gx.ty.isPtr = true → gx.ty.comparable = true) ∧
  (gx.ty = gy.ty → gx.objId = gy.objId →
    gx.valid = gy.valid ∧ reflValue gx = reflValue gy)

/-- `GoodPair` lifted to possibly-nil handles. -/
def GoodPairO : Option GoMessage → Option GoMessage → Prop
  | some gx, some gy => GoodPair gx gy
  | _, _ => True

/-- Modelled from the spec: the structural-equality predicate `proto.Equal`
(not among the shipped sources) — nil equals only nil, and two non-nil
messages are equal when their validity flags agree and their reflected
values are structurally equal. -/
def protoEqual : Option GoMessage → Option GoMessage → Bool
  | none, none => true
  | none, some _ => false
  | some _, none => false
  | some gx, some gy =>
      decide (gx.valid = gy.valid) && eqValue (reflValue gx) (reflValue gy)

/-- Rank of a possibly-nil handle: nil below everything else. -/
def msgRank : Option GoMessage → Nat
  | none => 0
  | some _ => 1

/-- Payload comparison of two handles of equal rank. -/
def msgPayload : Option GoMessage → Option GoMessage → Int
  | some gx, some gy => compareBody gx gy
  | _, _ => 0

/-- Byte sequence of a string (full type names are compared byte-wise). -/
def strBytes (s : String) : List Nat := s.data.map (fun ch => ch.toNat)

/-- A comparable pointer-kind dynamic type, for sample handles. -/
def tyA : GoType := ⟨1, true, true⟩

/-- Sample handle: `{optionalInt32: 1}` (field number 1 holds 1). -/
def handleX : GoMessage := ⟨tyA, 1, true, [65], [(1, Value.intV 1)], []⟩

/-- Sample handle: `{optionalInt64: 1}` (field number 2 holds 1). -/
def handleY : GoMessage := ⟨tyA, 2, true, [65], [(2, Value.intV 1)], []⟩

/-- Sample handle: `M1 = {optionalInt32: -1, optionalInt64: 1}`. -/
def handleM1 : GoMessage := ⟨tyA, 3, true, [65], [(1, Value.intV (-1)), (2, Value.intV 1)], []⟩

/-- Sample handle: `M2 = {optionalInt32: 1, optionalInt64: -1}`. -/
def handleM2 : GoMessage := ⟨tyA, 4, true, [65], [(1, Value.intV 1), (2, Value.intV (-1))], []⟩

/-- Sample invalid (typed nil) handle. -/
def handleInv : GoMessage := ⟨tyA, 5, false, [65], [], []⟩

/-- Sample handle holding NaN in float field 3. -/
def handleNaN : GoMessage := ⟨tyA, 6, true, [65], [(3, Value.floatV .nan)], []⟩

/-- A second, distinct handle holding NaN in float field 3. -/
def handleNaN2 : GoMessage := ⟨tyA, 7, true, [65], [(3, Value.floatV .nan)], []⟩

/-- Sample handle holding 0 in float field 3. -/
def handleZero : GoMessage := ⟨tyA, 8, true, [65], [(3, Value.floatV (.finite 0))], []⟩

/-- Sample handle with one undecoded varint entry of value 1 at field
100000. -/
def handleUnk1 : GoMessage := ⟨tyA, 9, true, [65], [], [⟨100000, .varint, [1]⟩]⟩

/-- Sample handle with one undecoded varint entry of value 2 at field
100000. -/
def handleUnk2 : GoMessage := ⟨tyA, 10, true, [65], [], [⟨100000, .varint, [2]⟩]⟩

/-- The full type name of the generated type `TestAllTypes`. -/
def nameTestAllTypes : List Nat := strBytes "goproto.proto.test.TestAllTypes"

/-- The full type name of the generated type `TestAllExtensions`. -/
def nameTestAllExtensions : List Nat := strBytes "goproto.proto.test.TestAllExtensions"

/-- The handle `(*TestAllTypes)(nil)`: non-nil interface, invalid message. -/
def nilTestAllTypes : GoMessage := ⟨⟨2, true, true⟩, 11, false, nameTestAllTypes, [], []⟩

/-- The handle `(*TestAllExtensions)(nil)`: non-nil interface, invalid
message. -/
def nilTestAllExtensions : GoMessage := ⟨⟨3, true, true⟩, 12, false, nameTestAllExtensions, [], []⟩

/-- The field-presence rule exactly as claim C4 states it: iterate the union
of field numbers of both (ascending-sorted) field lists in ascending order;
a field present in exactly one side makes the side without it strictly less,
regardless of the present value; on a shared number the value comparison
decides, and the first nonzero result wins.  (Second definition, written
from the claim's words, to compare against the behaviour the repository's
tests pin down.) -/
def specFieldWalk (c : Value → Value → Int) : List (Nat × Value) → List (Nat × Value) → Int
  | [], [] => 0
  | [], _ :: _ => -1
  | _ :: _, [] => 1
  | (a, va) :: xs, (b, vb) :: ys =>
      if a < b then 1
      else if b < a then -1
      else cmpSeq (c va vb) (specFieldWalk c xs ys)

theorem IsOrd3.refl {α : Type _} {c : α → α → Int} (h : IsOrd3 c) (x : α) :
    c x x = 0 := by
  have := h.antisym x x; omega

theorem IsOrd3.rev {α : Type _} {c : α → α → Int} (h : IsOrd3 c) :
    IsOrd3 (fun a b => c b a) := by
  refine ⟨fun x y => ?_, fun x y z h1 h2 => h.letrans z y x h2 h1, fun x y => h.range y x⟩
  have := h.antisym y x; omega

theorem IsOrd3.lt_le {α : Type _} {c : α → α → Int} (h : IsOrd3 c) {x y z : α}
    (h1 : c x y = -1) (h2 : c y z ≤ 0) : c x z = -1 := by
  rcases h.range x z with h3 | h3 | h3
  · exact h3
  · have hzx : c z x = 0 := by have := h.antisym x z; omega
    have hzy : c z y ≤ 0 := h.letrans z x y (by omega) (by omega)
    have hyz0 : c y z = 0 := by have := h.antisym y z; omega
    have hyx : c y x ≤ 0 := h.letrans y z x (by omega) (by omega)
    have := h.antisym x y; omega
  · have hzx : c z x = -1 := by have := h.antisym x z; omega
    have hzy : c z y ≤ 0 := h.letrans z x y (by omega) (by omega)
    have hyz0 : c y z = 0 := by have := h.antisym y z; omega
    have hyx : c y x ≤ 0 := h.letrans y z x (by omega) (by omega)
    have := h.antisym x y; omega

theorem IsOrd3.le_lt {α : Type _} {c : α → α → Int} (h : IsOrd3 c) {x y z : α}
    (h1 : c x y ≤ 0) (h2 : c y z = -1) : c x z = -1 := by
  rcases h.range x z with h3 | h3 | h3
  · exact h3
  · have hzx : c z x ≤ 0 := by have := h.antisym x z; omega
    have hzy : c z y ≤ 0 := h.letrans z x y hzx h1
    have := h.antisym y z; omega
  · have hzx : c z x ≤ 0 := by have := h.antisym x z; omega
    have hzy : c z y ≤ 0 := h.letrans z x y hzx h1
    have := h.antisym y z; omega

theorem IsOrd3.zero_zero {α : Type _} {c : α → α → Int} (h : IsOrd3 c) {x y z : α}
    (h1 : c x y = 0) (h2 : c y z = 0) : c x z = 0 := by
  have ha : c x z ≤ 0 := h.letrans x y z (by omega) (by omega)
  have hzy : c z y = 0 := by have := h.antisym y z; omega
  have hyx : c y x = 0 := by have := h.antisym x y; omega
  have hb : c z x ≤ 0 := h.letrans z y x (by omega) (by omega)
  have := h.antisym x z; omega

theorem IsOrd3.zero_left {α : Type _} {c : α → α → Int} (h : IsOrd3 c) {x y z : α}
    (h1 : c x y = 0) : c x z = c y z := by
  rcases h.range y z with h2 | h2 | h2
  · have := h.le_lt (x := x) (by omega) h2; omega
  · have := h.zero_zero h1 h2; omega
  · have hzy : c z y = -1 := by have := h.antisym y z; omega
    have hyx : c y x ≤ 0 := by have := h.antisym x y; omega
    have := h.lt_le hzy hyx
    have := h.antisym x z; omega

theorem IsOrd3.zero_right {α : Type _} {c : α → α → Int} (h : IsOrd3 c) {x y z : α}
    (h1 : c y z = 0) : c x y = c x z := by
  rcases h.range x y with h2 | h2 | h2
  · have := h.lt_le (y := y) (z := z) h2 (by omega); omega
  · have := h.zero_zero h2 h1; omega
  · have hyx : c y x = -1 := by have := h.antisym x y; omega
    have hzy : c z y = 0 := by have := h.antisym y z; omega
    have := h.le_lt (x := z) (y := y) (z := x) (by omega) hyx
    have := h.antisym x z; omega

theorem ord3_antisym {α : Type _} [LinearOrder α] (x y : α) :
    ord3 x y = -(ord3 y x) := by
  unfold ord3
  rcases lt_trichotomy x y with h | h | h
  · rw [if_pos h, if_neg (not_lt_of_gt h), if_pos h]
  · subst h; simp [lt_irrefl]
  · rw [if_neg (not_lt_of_gt h), if_pos h, if_pos h]; omega

theorem ord3_range {α : Type _} [LinearOrder α] (x y : α) :
    ord3 x y = -1 ∨ ord3 x y = 0 ∨ ord3 x y = 1 := by
  unfold ord3; split
  · omega
  · split <;> omega

theorem ord3_le_iff {α : Type _} [LinearOrder α] {x y : α} :
    ord3 x y ≤ 0 ↔ x ≤ y := by
  unfold ord3
  rcases lt_trichotomy x y with h | h | h
  · rw [if_pos h]; simp [le_of_lt h]
  · rw [if_neg (by rw [h]; exact lt_irrefl y), if_neg (by rw [h]; exact lt_irrefl y)]
    simp [le_of_eq h]
  · rw [if_neg (not_lt_of_gt h), if_pos h]
    simp [not_le_of_gt h]

theorem ord3_eq_zero_iff {α : Type _} [LinearOrder α] {x y : α} :
    ord3 x y = 0 ↔ x = y := by
  unfold ord3
  rcases lt_trichotomy x y with h | h | h
  · rw [if_pos h]; simp [ne_of_lt h]
  · rw [if_neg (by rw [h]; exact lt_irrefl y), if_neg (by rw [h]; exact lt_irrefl y)]
    simp [h]
  · rw [if_neg (not_lt_of_gt h), if_pos h]
    simp [Ne.symm (ne_of_lt h)]

theorem ord3_eq_neg_one_iff {α : Type _} [LinearOrder α] {x y : α} :
    ord3 x y = -1 ↔ x < y := by
  unfold ord3
  rcases lt_trichotomy x y with h | h | h
  · rw [if_pos h]; simp [h]
  · rw [if_neg (by rw [h]; exact lt_irrefl y), if_neg (by rw [h]; exact lt_irrefl y)]
    simp [h, lt_irrefl]
  · rw [if_neg (not_lt_of_gt h), if_pos h]
    simp [not_lt_of_gt h]

theorem isOrd3_ord3 {α : Type _} [LinearOrder α] :
    IsOrd3 (fun x y : α => ord3 x y) := by
  refine ⟨ord3_antisym, fun x y z h1 h2 => ?_, ord3_range⟩
  rw [ord3_le_iff] at *
  exact le_trans h1 h2

theorem cmpSeq_eq_zero_iff {a b : Int} : cmpSeq a b = 0 ↔ a = 0 ∧ b = 0 := by
  unfold cmpSeq; split <;> omega

theorem cmpSeq_antisym {a b a2 b2 : Int} (ha : a = -a2) (hb : b = -b2) :
    cmpSeq a b = -(cmpSeq a2 b2) := by
  unfold cmpSeq; split <;> split <;> omega

theorem cmpSeq_le_iff {a b : Int} (ha : a = -1 ∨ a = 0 ∨ a = 1) :
    cmpSeq a b ≤ 0 ↔ (a = -1 ∨ (a = 0 ∧ b ≤ 0)) := by
  unfold cmpSeq; split <;> omega

/-- Lexicographic ("first nonzero wins") pairing of two comparators on the
same arguments is again a total preorder comparison. -/
theorem isOrd3_c2lex {α : Type _} {c d : α → α → Int}
    (hc : IsOrd3 c) (hd : IsOrd3 d) :
    IsOrd3 (fun x y => cmpSeq (c x y) (d x y)) := by
  refine ⟨fun x y => cmpSeq_antisym (hc.antisym x y) (hd.antisym x y),
    fun x y z h1 h2 => ?_, fun x y => ?_⟩
  · rw [cmpSeq_le_iff (hc.range x y)] at h1
    rw [cmpSeq_le_iff (hc.range y z)] at h2
    rw [cmpSeq_le_iff (hc.range x z)]
    rcases h1 with h1 | ⟨h1, h1d⟩
    · rcases h2 with h2 | ⟨h2, _⟩
      · exact Or.inl (hc.lt_le h1 (by omega))
      · exact Or.inl (hc.lt_le h1 (by omega))
    · rcases h2 with h2 | ⟨h2, h2d⟩
      · exact Or.inl (hc.le_lt (by omega) h2)
      · exact Or.inr ⟨hc.zero_zero h1 h2, hd.letrans x y z h1d h2d⟩
  · unfold cmpSeq; split
    · exact hd.range x y
    · exact hc.range x y

theorem isOrd3_comp {α β : Type _} {c : β → β → Int} (g : α → β)
    (hc : IsOrd3 c) : IsOrd3 (fun x y => c (g x) (g y)) :=
  ⟨fun x y => hc.antisym _ _, fun x y z h1 h2 => hc.letrans _ _ _ h1 h2,
   fun x y => hc.range _ _⟩

theorem isOrd3_lexCmpWith {α : Type _} {c : α → α → Int} (hc : IsOrd3 c) :
    IsOrd3 (lexCmpWith c) := by
  refine ⟨?_, ?_, ?_⟩
  · intro xs
    induction xs with
    | nil => intro ys; cases ys <;> simp [lexCmpWith]
    | cons a as ih =>
      intro ys
      cases ys with
      | nil => simp [lexCmpWith]
      | cons b bs =>
        simp only [lexCmpWith]
        have hab := hc.antisym a b
        by_cases h : c a b = 0
        · have hba : c b a = 0 := by omega
          simp [h, hba, ih bs]
        · have hba : ¬ c b a = 0 := by omega
          simp [h, hba]; omega
  · intro xs
    induction xs with
    | nil =>
      intro ys zs h1 h2
      cases zs with
      | nil => simp [lexCmpWith]
      | cons d ds => simp [lexCmpWith]
    | cons a as ih =>
      intro ys zs h1 h2
      cases ys with
      | nil =>
        exfalso; simp [lexCmpWith] at h1
      | cons b bs =>
        cases zs with
        | nil =>
          exfalso
          simp only [lexCmpWith] at h2
          omega
        | cons d ds =>
          simp only [lexCmpWith] at h1 h2 ⊢
          by_cases hab : c a b = 0
          · rw [if_pos hab] at h1
            by_cases hbd : c b d = 0
            · rw [if_pos hbd] at h2
              rw [if_pos (hc.zero_zero hab hbd)]
              exact ih bs ds h1 h2
            · rw [if_neg hbd] at h2
              have h2d : c b d = -1 := by rcases hc.range b d with h | h | h <;> omega
              have had : c a d = -1 := hc.le_lt (by omega) h2d
              rw [if_neg (by omega)]; omega
          · rw [if_neg hab] at h1
            have h1d : c a b = -1 := by rcases hc.range a b with h | h | h <;> omega
            by_cases hbd : c b d = 0
            · have had : c a b = c a d := hc.zero_right hbd
              rw [if_neg (by omega)]; omega
            · rw [if_neg hbd] at h2
              have h2d : c b d = -1 := by rcases hc.range b d with h | h | h <;> omega
              have had : c a d = -1 := hc.lt_le h1d (by omega)
              rw [if_neg (by omega)]; omega
  · intro xs
    induction xs with
    | nil => intro ys; cases ys <;> simp [lexCmpWith]
    | cons a as ih =>
      intro ys
      cases ys with
      | nil => simp [lexCmpWith]
      | cons b bs =>
        simp only [lexCmpWith]; split
        · exact ih bs
        · exact hc.range a b

/-- The "rank first, payload on rank tie" pattern produces a total preorder
comparison provided the payload comparator is antisymmetric, ranged, and
transitive on rank-equal arguments. -/
theorem isOrd3_rankThen {α : Type _} (f : α → Nat) (d : α → α → Int)
    (h1 : ∀ x y, d x y = -(d y x))
    (h2 : ∀ x y, d x y = -1 ∨ d x y = 0 ∨ d x y = 1)
    (h3 : ∀ x y z, f x = f y → f y = f z → d x y ≤ 0 → d y z ≤ 0 → d x z ≤ 0) :
    IsOrd3 (fun x y => cmpSeq (ord3 (f x) (f y)) (d x y)) := by
  refine ⟨fun x y => cmpSeq_antisym (ord3_antisym _ _) (h1 x y),
    fun x y z hxy hyz => ?_, fun x y => ?_⟩
  · rw [cmpSeq_le_iff (ord3_range _ _)] at hxy hyz ⊢
    rcases hxy with hxy | ⟨hxy, hxyd⟩
    · rw [ord3_eq_neg_one_iff] at hxy
      rcases hyz with hyz | ⟨hyz, _⟩
      · rw [ord3_eq_neg_one_iff] at hyz
        exact Or.inl (ord3_eq_neg_one_iff.2 (lt_trans hxy hyz))
      · rw [ord3_eq_zero_iff] at hyz
        exact Or.inl (ord3_eq_neg_one_iff.2 (by omega))
    · rw [ord3_eq_zero_iff] at hxy
      rcases hyz with hyz | ⟨hyz, hyzd⟩
      · rw [ord3_eq_neg_one_iff] at hyz
        exact Or.inl (ord3_eq_neg_one_iff.2 (by omega))
      · rw [ord3_eq_zero_iff] at hyz
        exact Or.inr ⟨ord3_eq_zero_iff.2 (by omega), h3 x y z hxy hyz hxyd hyzd⟩
  · unfold cmpSeq; split
    · exact h2 x y
    · exact ord3_range _ _

theorem lexCmpWith_congr {α : Type _} {c c2 : α → α → Int} :
    ∀ {xs ys : List α}, (∀ a ∈ xs, ∀ b ∈ ys, c a b = c2 a b) →
      lexCmpWith c xs ys = lexCmpWith c2 xs ys := by
  intro xs
  induction xs with
  | nil => intro ys h; cases ys <;> simp [lexCmpWith]
  | cons a as ih =>
    intro ys h
    cases ys with
    | nil => simp [lexCmpWith]
    | cons b bs =>
      simp only [lexCmpWith]
      rw [h a (by simp) b (by simp)]
      split
      · exact ih fun p hp q hq => h p (by simp [hp]) q (by simp [hq])
      · rfl

theorem lexCmpWith_eq_zero_iff {α : Type _} {c : α → α → Int} {e : α → α → Bool} :
    ∀ {xs ys : List α}, (∀ a ∈ xs, ∀ b ∈ ys, (c a b = 0 ↔ e a b = true)) →
      (lexCmpWith c xs ys = 0 ↔ eqListWith e xs ys = true) := by
  intro xs
  induction xs with
  | nil => intro ys h; cases ys <;> simp [lexCmpWith, eqListWith]
  | cons a as ih =>
    intro ys h
    cases ys with
    | nil => simp [lexCmpWith, eqListWith]
    | cons b bs =>
      simp only [lexCmpWith, eqListWith]
      by_cases hab : c a b = 0
      · have heb : e a b = true := (h a (by simp) b (by simp)).1 hab
        rw [if_pos hab, heb]
        simpa using ih fun p hp q hq => h p (by simp [hp]) q (by simp [hq])
      · have heb : ¬ e a b = true := fun hh => hab ((h a (by simp) b (by simp)).2 hh)
        rw [if_neg hab]
        simp [heb, hab]

theorem lexCmpWith_self_append_cons {α : Type _} {c : α → α → Int}
    (hrefl : ∀ a, c a a = 0) :
    ∀ (xs : List α) (b : α) (bs : List α), lexCmpWith c xs (xs ++ b :: bs) = -1 := by
  intro xs
  induction xs with
  | nil => intro b bs; simp [lexCmpWith]
  | cons a as ih => intro b bs; simp [lexCmpWith, hrefl a, ih]

theorem lexCmpWith_append_diff {α : Type _} {c : α → α → Int}
    (hrefl : ∀ a, c a a = 0) {x y : α} {xs ys : List α} (hxy : c x y ≠ 0) :
    ∀ pre : List α, lexCmpWith c (pre ++ x :: xs) (pre ++ y :: ys) = c x y := by
  intro pre
  induction pre with
  | nil => simp [lexCmpWith, hxy]
  | cons p ps ih => simp [lexCmpWith, hrefl p, ih]

theorem lexCmpWith_zero_iff_forall {α : Type _} {c : α → α → Int} :
    ∀ {xs ys : List α}, (lexCmpWith c xs ys = 0 ↔
      (xs.length = ys.length ∧ ∀ p ∈ xs.zip ys, c p.1 p.2 = 0)) := by
  intro xs
  induction xs with
  | nil => intro ys; cases ys <;> simp [lexCmpWith]
  | cons a as ih =>
    intro ys
    cases ys with
    | nil => simp [lexCmpWith]
    | cons b bs =>
      simp only [lexCmpWith, List.zip_cons_cons, List.length_cons]
      by_cases hab : c a b = 0
      · rw [if_pos hab]
        rw [ih]
        constructor
        · rintro ⟨hl, hall⟩
          refine ⟨by omega, ?_⟩
          intro p hp
          rcases List.mem_cons.1 hp with hp | hp
          · subst hp; exact hab
          · exact hall p hp
        · rintro ⟨hl, hall⟩
          exact ⟨by omega, fun p hp => hall p (List.mem_cons_of_mem _ hp)⟩
      · rw [if_neg hab]
        constructor
        · intro hz; exact absurd hz hab
        · rintro ⟨_, hall⟩
          exact absurd (hall (a, b) (List.mem_cons_self _ _)) hab

theorem mem_insertBy {α : Type _} {c : α → α → Int} {x a : α} :
    ∀ {l : List α}, (a ∈ insertBy c x l ↔ a = x ∨ a ∈ l) := by
  intro l
  induction l with
  | nil => simp [insertBy]
  | cons b bs ih =>
    simp only [insertBy]
    split
    · simp [List.mem_cons]
    · simp only [List.mem_cons, ih]; tauto

theorem mem_insertionSortBy {α : Type _} {c : α → α → Int} {a : α} :
    ∀ {l : List α}, (a ∈ insertionSortBy c l ↔ a ∈ l) := by
  intro l
  induction l with
  | nil => simp [insertionSortBy]
  | cons b bs ih =>
    simp only [insertionSortBy, mem_insertBy, List.mem_cons, ih]

theorem insertBy_perm {α : Type _} (c : α → α → Int) (x : α) :
    ∀ (l : List α), (insertBy c x l).Perm (x :: l) := by
  intro l
  induction l with
  | nil => simp [insertBy]
  | cons b bs ih =>
    simp only [insertBy]
    split
    · exact List.Perm.refl _
    · exact ((ih.cons b).trans (List.Perm.swap x b bs))

theorem insertionSortBy_perm {α : Type _} (c : α → α → Int) :
    ∀ (l : List α), (insertionSortBy c l).Perm l := by
  intro l
  induction l with
  | nil => exact List.Perm.refl _
  | cons b bs ih =>
    simp only [insertionSortBy]
    exact (insertBy_perm c b _).trans (ih.cons b)

theorem insertBy_congr {α : Type _} {c c2 : α → α → Int} {x : α} :
    ∀ {l : List α}, (∀ b ∈ l, c x b = c2 x b) → insertBy c x l = insertBy c2 x l := by
  intro l
  induction l with
  | nil => intro _; rfl
  | cons b bs ih =>
    intro h
    simp only [insertBy]
    rw [h b (by simp)]
    split
    · rfl
    · rw [ih fun p hp => h p (by simp [hp])]

theorem insertionSortBy_congr {α : Type _} {c c2 : α → α → Int} :
    ∀ {l : List α}, (∀ a ∈ l, ∀ b ∈ l, c a b = c2 a b) →
      insertionSortBy c l = insertionSortBy c2 l := by
  intro l
  induction l with
  | nil => intro _; rfl
  | cons b bs ih =>
    intro h
    simp only [insertionSortBy]
    rw [ih fun p hp q hq => h p (by simp [hp]) q (by simp [hq])]
    exact insertBy_congr fun p hp =>
      h b (by simp) p (by simp [mem_insertionSortBy.1 hp])

theorem insertBy_pairwise {α : Type _} {c : α → α → Int} (hc : IsOrd3 c) {x : α} :
    ∀ {l : List α}, l.Pairwise (fun a b => c a b ≤ 0) →
      (insertBy c x l).Pairwise (fun a b => c a b ≤ 0) := by
  intro l
  induction l with
  | nil => intro _; simp [insertBy]
  | cons b bs ih =>
    intro h
    rcases List.pairwise_cons.1 h with ⟨hb, hbs⟩
    simp only [insertBy]
    split
    · refine List.pairwise_cons.2 ⟨?_, h⟩
      intro p hp
      rcases List.mem_cons.1 hp with hp | hp
      · subst hp; omega
      · exact hc.letrans x b p (by omega) (hb p hp)
    · refine List.pairwise_cons.2 ⟨?_, ih hbs⟩
      intro p hp
      rcases mem_insertBy.1 hp with hp | hp
      · rw [hp]
        have h2 := hc.antisym b x
        rcases hc.range b x with hr | hr | hr <;> omega
      · exact hb p hp

theorem insertionSortBy_pairwise {α : Type _} {c : α → α → Int} (hc : IsOrd3 c) :
    ∀ (l : List α), (insertionSortBy c l).Pairwise (fun a b => c a b ≤ 0) := by
  intro l
  induction l with
  | nil => simp [insertionSortBy]
  | cons b bs ih => exact insertBy_pairwise hc ih

/-- Two sorted lists that are permutations of each other coincide, provided
ties within the first list only occur between equal elements. -/
theorem sorted_perm_eq {α : Type _} {c : α → α → Int} (hc : IsOrd3 c) :
    ∀ {l1 l2 : List α}, (∀ a ∈ l1, ∀ b ∈ l1, c a b = 0 → a = b) →
      l1.Perm l2 → l1.Pairwise (fun a b => c a b ≤ 0) →
      l2.Pairwise (fun a b => c a b ≤ 0) → l1 = l2 := by
  intro l1
  induction l1 with
  | nil =>
    intro l2 _ hp _ _
    exact hp.nil_eq
  | cons a t1 ih =>
    intro l2 hkd hp hs1 hs2
    cases l2 with
    | nil => exact absurd hp.eq_nil (by simp)
    | cons b t2 =>
      have hab : a = b := by
        have hbmem : b ∈ a :: t1 := hp.mem_iff.2 (by simp)
        have hamem : a ∈ b :: t2 := hp.mem_iff.1 (by simp)
        rcases List.mem_cons.1 hbmem with hb | hb
        · exact hb.symm
        rcases List.mem_cons.1 hamem with ha | ha
        · exact ha
        have h1 : c a b ≤ 0 := (List.pairwise_cons.1 hs1).1 b hb
        have h2 : c b a ≤ 0 := (List.pairwise_cons.1 hs2).1 a ha
        have := hc.antisym a b
        exact hkd a (by simp) b (by simp [hb]) (by omega)
      subst hab
      have hp2 : t1.Perm t2 := hp.cons_inv
      rw [ih (fun p hp q hq => hkd p (by simp [hp]) q (by simp [hq])) hp2
        (List.pairwise_cons.1 hs1).2 (List.pairwise_cons.1 hs2).2]

theorem one_le_vsize : ∀ v : Value, 1 ≤ vsize v := by
  intro v; cases v <;> simp [vsize]

theorem vsize_le_vsizeList {v : Value} : ∀ {l : List Value}, v ∈ l → vsize v ≤ vsizeList l := by
  intro l
  induction l with
  | nil => intro h; cases h
  | cons a as ih =>
    intro h
    rcases List.mem_cons.1 h with h | h
    · subst h; simp [vsizeList]
    · have := ih h; simp [vsizeList]; omega

theorem vsize_lt_of_mem_listV {v : Value} {l : List Value} (h : v ∈ l) :
    vsize v < vsize (Value.listV l) := by
  have := vsize_le_vsizeList h
  simp [vsize]; omega

theorem vsize_le_vsizeFields {p : Nat × Value} : ∀ {fs : List (Nat × Value)},
    p ∈ fs → vsize p.2 ≤ vsizeFields fs := by
  intro fs
  induction fs with
  | nil => intro h; cases h
  | cons a as ih =>
    intro h
    rcases List.mem_cons.1 h with h | h
    · subst h; simp [vsizeFields]
    · have := ih h; simp [vsizeFields]; omega

theorem vsize_lt_of_mem_fields (nm : List Nat) (us : List UnknownField)
    {p : Nat × Value} {fs : List (Nat × Value)} (h : p ∈ fs) :
    vsize p.2 < vsize (Value.msgV nm fs us) := by
  have := vsize_le_vsizeFields h
  simp [vsize]; omega

theorem vsize_le_vsizeEntries {p : Value × Value} : ∀ {es : List (Value × Value)},
    p ∈ es → vsize p.1 + vsize p.2 ≤ vsizeEntries es := by
  intro es
  induction es with
  | nil => intro h; cases h
  | cons a as ih =>
    intro h
    rcases List.mem_cons.1 h with h | h
    · subst h; simp [vsizeEntries]
    · have := ih h; simp [vsizeEntries]; omega

theorem vsize_lt_of_mem_mapV {p : Value × Value} {es : List (Value × Value)}
    (h : p ∈ es) :
    vsize p.1 < vsize (Value.mapV es) ∧ vsize p.2 < vsize (Value.mapV es) := by
  have := vsize_le_vsizeEntries h
  have h1 := one_le_vsize p.1
  have h2 := one_le_vsize p.2
  simp [vsize]; omega

theorem isOrd3_ext {α : Type _} {c d : α → α → Int} (h : ∀ x y, c x y = d x y)
    (hc : IsOrd3 c) : IsOrd3 d := by
  refine ⟨fun x y => ?_, fun x y z h1 h2 => ?_, fun x y => ?_⟩
  · rw [← h, ← h]; exact hc.antisym x y
  · rw [← h] at h1 h2 ⊢; exact hc.letrans x y z h1 h2
  · rw [← h]; exact hc.range x y

theorem isOrd3_cmpUnknownEntry : IsOrd3 cmpUnknownEntry := by
  refine isOrd3_ext (c := fun e f : UnknownField =>
      cmpSeq (ord3 e.num f.num)
        (cmpSeq (ord3 (wireRank e.wire) (wireRank f.wire))
          (lexCmpWith ord3 e.payload f.payload))) (fun x y => rfl) ?_
  exact isOrd3_c2lex (isOrd3_comp (fun e : UnknownField => e.num) isOrd3_ord3)
    (isOrd3_c2lex (isOrd3_comp (fun e : UnknownField => wireRank e.wire) isOrd3_ord3)
      (isOrd3_comp (fun e : UnknownField => e.payload) (isOrd3_lexCmpWith isOrd3_ord3)))

theorem isOrd3_cmpFloat : IsOrd3 cmpFloat := by
  refine isOrd3_ext (fun x y => rfl)
    (isOrd3_rankThen floatRank
      (fun x y => match x, y with | .finite a, .finite b => ord3 a b | _, _ => 0)
      ?_ ?_ ?_)
  · intro x y
    cases x <;> cases y <;> first | exact ord3_antisym _ _ | simp
  · intro x y
    cases x <;> cases y <;> first | exact ord3_range _ _ | simp
  · intro x y z hxy hyz h1 h2
    cases x <;> cases y <;> cases z
    all_goals try (exfalso; simp [floatRank] at hxy hyz; done)
    all_goals try simp
    all_goals exact isOrd3_ord3.letrans _ _ _ h1 h2

theorem isOrd3_cmpSeqLen {α : Type _} {c : α → α → Int} (hc : IsOrd3 c) :
    IsOrd3 (cmpSeqLen c) :=
  isOrd3_ext (fun x y => rfl)
    (isOrd3_c2lex (isOrd3_comp (fun l : List α => l.length) isOrd3_ord3)
      (isOrd3_lexCmpWith hc))

theorem isOrd3_cmpFieldEntry {c : Value → Value → Int} (hc : IsOrd3 c) :
    IsOrd3 (cmpFieldEntry c) := by
  refine isOrd3_ext (c := fun p q : Nat × Value => cmpSeq (ord3 p.1 q.1) (c p.2 q.2))
    (fun x y => rfl) ?_
  exact isOrd3_c2lex (isOrd3_comp (fun p : Nat × Value => p.1) isOrd3_ord3)
    (isOrd3_comp (fun p : Nat × Value => p.2) hc)

theorem isOrd3_cmpMapEntry {c : Value → Value → Int} (hc : IsOrd3 c) :
    IsOrd3 (cmpMapEntry c) := by
  refine isOrd3_ext (c := fun p q : Value × Value => cmpSeq (c p.1 q.1) (c p.2 q.2))
    (fun x y => rfl) ?_
  exact isOrd3_c2lex (isOrd3_comp (fun p : Value × Value => p.1) hc)
    (isOrd3_comp (fun p : Value × Value => p.2) hc)

theorem isOrd3_cmpEntryKey {c : Value → Value → Int} (hc : IsOrd3 c) :
    IsOrd3 (cmpEntryKey c) :=
  isOrd3_ext (fun x y => rfl) (isOrd3_comp (fun p : Value × Value => p.1) hc)

theorem isOrd3_cmpMsgParts {c : Value → Value → Int} (hc : IsOrd3 c) :
    IsOrd3 (cmpMsgParts c) := by
  refine isOrd3_ext
    (c := fun p q : List Nat × List (Nat × Value) × List UnknownField =>
      cmpSeq (lexCmpWith ord3 p.1 q.1)
        (cmpSeq (lexCmpWith (cmpFieldEntry c) p.2.1 q.2.1)
          (lexCmpWith cmpUnknownEntry p.2.2 q.2.2)))
    (fun x y => rfl) ?_
  exact isOrd3_c2lex
    (isOrd3_comp (fun p : List Nat × List (Nat × Value) × List UnknownField => p.1)
      (isOrd3_lexCmpWith isOrd3_ord3))
    (isOrd3_c2lex
      (isOrd3_comp (fun p : List Nat × List (Nat × Value) × List UnknownField => p.2.1)
        (isOrd3_lexCmpWith (isOrd3_cmpFieldEntry hc)))
      (isOrd3_comp (fun p : List Nat × List (Nat × Value) × List UnknownField => p.2.2)
        (isOrd3_lexCmpWith isOrd3_cmpUnknownEntry)))

theorem cmpPayloadWith_antisym {c : Value → Value → Int} (hc : IsOrd3 c) :
    ∀ x y, cmpPayloadWith c x y = -(cmpPayloadWith c y x) := by
  intro x y
  cases x <;> cases y <;>
    simp only [cmpPayloadWith] <;>
    first
      | omega
      | exact ord3_antisym _ _
      | exact isOrd3_cmpFloat.antisym _ _
      | exact (isOrd3_lexCmpWith isOrd3_ord3).antisym _ _
      | exact (isOrd3_cmpSeqLen hc).antisym _ _
      | exact (isOrd3_lexCmpWith (isOrd3_cmpMapEntry hc)).antisym _ _
      | exact (isOrd3_cmpMsgParts hc).antisym _ _

theorem cmpPayloadWith_range {c : Value → Value → Int} (hc : IsOrd3 c) :
    ∀ x y, cmpPayloadWith c x y = -1 ∨ cmpPayloadWith c x y = 0 ∨
      cmpPayloadWith c x y = 1 := by
  intro x y
  cases x <;> cases y <;>
    simp only [cmpPayloadWith] <;>
    first
      | omega
      | simp
      | exact ord3_range _ _
      | exact isOrd3_cmpFloat.range _ _
      | exact (isOrd3_lexCmpWith isOrd3_ord3).range _ _
      | exact (isOrd3_cmpSeqLen hc).range _ _
      | exact (isOrd3_lexCmpWith (isOrd3_cmpMapEntry hc)).range _ _
      | exact (isOrd3_cmpMsgParts hc).range _ _

theorem cmpPayloadWith_letrans {c : Value → Value → Int} (hc : IsOrd3 c) :
    ∀ x y z, kindRank x = kindRank y → kindRank y = kindRank z →
      cmpPayloadWith c x y ≤ 0 → cmpPayloadWith c y z ≤ 0 →
      cmpPayloadWith c x z ≤ 0 := by
  intro x y z hxy hyz h1 h2
  cases x <;> cases y <;> cases z
  all_goals try (exfalso; simp [kindRank] at hxy hyz; done)
  all_goals simp only [cmpPayloadWith] at h1 h2 ⊢
  all_goals
    first
      | simp
      | exact isOrd3_ord3.letrans _ _ _ h1 h2
      | exact isOrd3_cmpFloat.letrans _ _ _ h1 h2
      | exact (isOrd3_lexCmpWith isOrd3_ord3).letrans _ _ _ h1 h2
      | exact (isOrd3_cmpSeqLen hc).letrans _ _ _ h1 h2
      | exact (isOrd3_lexCmpWith (isOrd3_cmpMapEntry hc)).letrans _ _ _ h1 h2
      | exact (isOrd3_cmpMsgParts hc).letrans _ _ _ h1 h2

/-- The fuelled engine is a total preorder comparison at every fuel level. -/
theorem isOrd3_cmpValueF (n : Nat) : IsOrd3 (cmpValueF n) := by
  induction n with
  | zero =>
    exact ⟨fun x y => by simp [cmpValueF], fun x y z h1 h2 => by simp [cmpValueF],
      fun x y => by simp [cmpValueF]⟩
  | succ n ih =>
    exact isOrd3_ext (fun x y => rfl)
      (isOrd3_rankThen kindRank (cmpPayloadWith (cmpValueF n))
        (cmpPayloadWith_antisym ih) (cmpPayloadWith_range ih)
        (cmpPayloadWith_letrans ih))

/-- The fuelled engine's result does not depend on the fuel, as long as the
fuel exceeds the sizes of both arguments. -/
theorem cmpValueF_stable (n : Nat) : ∀ (m : Nat) (x y : Value),
    vsize x ≤ n → vsize y ≤ n → vsize x ≤ m → vsize y ≤ m →
    cmpValueF n x y = cmpValueF m x y := by
  induction n with
  | zero =>
    intro m x y h1 _ _ _
    have := one_le_vsize x; omega
  | succ n ihn =>
    intro m x y h1 h2 h3 h4
    cases m with
    | zero => have := one_le_vsize x; omega
    | succ m =>
      have hpay : cmpPayloadWith (cmpValueF n) x y = cmpPayloadWith (cmpValueF m) x y := by
        cases x <;> cases y <;> simp only [cmpPayloadWith] <;> try rfl
        case listV.listV la lb =>
          have hlex : lexCmpWith (cmpValueF n) la lb = lexCmpWith (cmpValueF m) la lb := by
            apply lexCmpWith_congr
            intro a ha b hb
            have hsa := vsize_lt_of_mem_listV ha
            have hsb := vsize_lt_of_mem_listV hb
            exact ihn m a b (by omega) (by omega) (by omega) (by omega)
          simp only [cmpSeqLen, hlex]
        case mapV.mapV ea eb =>
          have hkey : ∀ (l : List (Value × Value)), vsize (Value.mapV l) ≤ n + 1 →
              vsize (Value.mapV l) ≤ m + 1 →
              insertionSortBy (cmpEntryKey (cmpValueF n)) l =
                insertionSortBy (cmpEntryKey (cmpValueF m)) l := by
            intro l hl1 hl2
            apply insertionSortBy_congr
            intro p hp q hq
            have hsp := vsize_lt_of_mem_mapV hp
            have hsq := vsize_lt_of_mem_mapV hq
            simp only [cmpEntryKey]
            exact ihn m p.1 q.1 (by omega) (by omega) (by omega) (by omega)
          rw [hkey ea h1 h3, hkey eb h2 h4]
          apply lexCmpWith_congr
          intro p hp q hq
          have hsp := vsize_lt_of_mem_mapV (mem_insertionSortBy.1 hp)
          have hsq := vsize_lt_of_mem_mapV (mem_insertionSortBy.1 hq)
          simp only [cmpMapEntry]
          rw [ihn m p.1 q.1 (by omega) (by omega) (by omega) (by omega),
            ihn m p.2 q.2 (by omega) (by omega) (by omega) (by omega)]
        case msgV.msgV nx fx ux ny fy uy =>
          simp only [cmpMsgParts]
          have hf : lexCmpWith (cmpFieldEntry (cmpValueF n)) fx fy =
              lexCmpWith (cmpFieldEntry (cmpValueF m)) fx fy := by
            apply lexCmpWith_congr
            intro p hp q hq
            have hsp := vsize_lt_of_mem_fields nx ux hp
            have hsq := vsize_lt_of_mem_fields ny uy hq
            simp only [cmpFieldEntry]
            rw [ihn m p.2 q.2 (by omega) (by omega) (by omega) (by omega)]
          rw [hf]
      show cmpSeq _ _ = cmpSeq _ _
      rw [hpay]

/-- Running the engine at any sufficient fuel agrees with `cmpValue`. -/
theorem cmpValueF_eq_cmpValue {n : Nat} {x y : Value}
    (h1 : vsize x ≤ n) (h2 : vsize y ≤ n) : cmpValueF n x y = cmpValue x y :=
  cmpValueF_stable n (vsize x + vsize y) x y h1 h2 (by omega) (by omega)

/-- The value comparator is a total preorder comparison. -/
theorem isOrd3_cmpValue : IsOrd3 cmpValue := by
  refine ⟨fun x y => ?_, fun x y z h1 h2 => ?_, fun x y => ?_⟩
  · have hx : cmpValue x y = cmpValueF (vsize x + vsize y) x y := rfl
    have hy : cmpValue y x = cmpValueF (vsize x + vsize y) y x :=
      cmpValueF_stable (vsize y + vsize x) (vsize x + vsize y) y x
        (by omega) (by omega) (by omega) (by omega)
    rw [hx, hy]
    exact (isOrd3_cmpValueF _).antisym x y
  · have e1 : cmpValue x y = cmpValueF (vsize x + vsize y + vsize z) x y :=
      (cmpValueF_eq_cmpValue (by omega) (by omega)).symm
    have e2 : cmpValue y z = cmpValueF (vsize x + vsize y + vsize z) y z :=
      (cmpValueF_eq_cmpValue (by omega) (by omega)).symm
    have e3 : cmpValue x z = cmpValueF (vsize x + vsize y + vsize z) x z :=
      (cmpValueF_eq_cmpValue (by omega) (by omega)).symm
    rw [e1] at h1; rw [e2] at h2; rw [e3]
    exact (isOrd3_cmpValueF _).letrans x y z h1 h2
  · exact (isOrd3_cmpValueF _).range x y

theorem eqListWith_decide_iff {α : Type _} [DecidableEq α] :
    ∀ {xs ys : List α}, (eqListWith (fun a b => decide (a = b)) xs ys = true ↔ xs = ys) := by
  intro xs
  induction xs with
  | nil => intro ys; cases ys <;> simp [eqListWith]
  | cons a as ih =>
    intro ys
    cases ys with
    | nil => simp [eqListWith]
    | cons b bs => simp [eqListWith, ih]

theorem lexOrd3_eq_zero_iff {α : Type _} [LinearOrder α] {xs ys : List α} :
    lexCmpWith ord3 xs ys = 0 ↔ xs = ys := by
  rw [lexCmpWith_eq_zero_iff (e := fun a b => decide (a = b))
    (fun a _ b _ => by simp [ord3_eq_zero_iff])]
  exact eqListWith_decide_iff

theorem cmpFloat_eq_zero_iff {a b : FloatV} : cmpFloat a b = 0 ↔ a = b := by
  cases a <;> cases b <;>
    simp [cmpFloat, cmpSeq_eq_zero_iff, floatRank, ord3_eq_zero_iff]

theorem wireRank_inj {a b : WireType} (h : wireRank a = wireRank b) : a = b := by
  cases a <;> cases b <;> first | rfl | (exfalso; simp [wireRank] at h)

theorem cmpUnknownEntry_eq_zero_iff {e f : UnknownField} :
    cmpUnknownEntry e f = 0 ↔ e = f := by
  obtain ⟨n1, w1, p1⟩ := e
  obtain ⟨n2, w2, p2⟩ := f
  simp only [cmpUnknownEntry, cmpSeq_eq_zero_iff]
  rw [ord3_eq_zero_iff, ord3_eq_zero_iff, lexOrd3_eq_zero_iff]
  constructor
  · rintro ⟨h1, h2, h3⟩
    subst h1; subst h3
    rw [wireRank_inj h2]
  · intro h
    injection h with h1 h2 h3
    subst h1; subst h2; subst h3
    exact ⟨rfl, rfl, rfl⟩

theorem eqListWith_length {α : Type _} {e : α → α → Bool} :
    ∀ {xs ys : List α}, eqListWith e xs ys = true → xs.length = ys.length := by
  intro xs
  induction xs with
  | nil => intro ys h; cases ys <;> simp_all [eqListWith]
  | cons a as ih =>
    intro ys h
    cases ys with
    | nil => simp [eqListWith] at h
    | cons b bs =>
      simp only [eqListWith, Bool.and_eq_true] at h
      simp [ih h.2]

theorem cmpSeqLen_eq_zero_iff {α : Type _} {c : α → α → Int} {e : α → α → Bool}
    {xs ys : List α} (h : ∀ a ∈ xs, ∀ b ∈ ys, (c a b = 0 ↔ e a b = true)) :
    cmpSeqLen c xs ys = 0 ↔ eqListWith e xs ys = true := by
  unfold cmpSeqLen
  rw [cmpSeq_eq_zero_iff, ord3_eq_zero_iff, lexCmpWith_eq_zero_iff h]
  constructor
  · rintro ⟨_, h2⟩; exact h2
  · intro h2; exact ⟨eqListWith_length h2, h2⟩

/-- At every fuel level, the engine returns `0` exactly on structurally equal
values. -/
theorem cmpValueF_eq_zero_iff (n : Nat) : ∀ x y : Value,
    (cmpValueF n x y = 0 ↔ eqValueF n x y = true) := by
  induction n with
  | zero => intro x y; simp [cmpValueF, eqValueF]
  | succ n ih =>
    intro x y
    show cmpSeq _ _ = 0 ↔ (decide (kindRank x = kindRank y) && _) = true
    rw [cmpSeq_eq_zero_iff, ord3_eq_zero_iff, Bool.and_eq_true, decide_eq_true_eq]
    apply and_congr_right
    intro hk
    cases x <;> cases y
    all_goals try (exfalso; simp [kindRank] at hk; done)
    case invalid.invalid => simp [cmpPayloadWith, eqPayloadWith]
    case boolV.boolV a b => simp [cmpPayloadWith, eqPayloadWith, ord3_eq_zero_iff]
    case intV.intV a b => simp [cmpPayloadWith, eqPayloadWith, ord3_eq_zero_iff]
    case uintV.uintV a b => simp [cmpPayloadWith, eqPayloadWith, ord3_eq_zero_iff]
    case enumV.enumV a b => simp [cmpPayloadWith, eqPayloadWith, ord3_eq_zero_iff]
    case floatV.floatV a b =>
      simp [cmpPayloadWith, eqPayloadWith, cmpFloat_eq_zero_iff]
    case textV.textV a b =>
      simp [cmpPayloadWith, eqPayloadWith, lexOrd3_eq_zero_iff]
    case bytesV.bytesV a b =>
      simp [cmpPayloadWith, eqPayloadWith, lexOrd3_eq_zero_iff]
    case listV.listV la lb =>
      simp only [cmpPayloadWith, eqPayloadWith]
      exact cmpSeqLen_eq_zero_iff (fun a _ b _ => ih a b)
    case mapV.mapV ea eb =>
      simp only [cmpPayloadWith, eqPayloadWith]
      refine lexCmpWith_eq_zero_iff (fun p _ q _ => ?_)
      simp only [cmpMapEntry, cmpSeq_eq_zero_iff, Bool.and_eq_true]
      rw [ih p.1 q.1, ih p.2 q.2]
    case msgV.msgV nx fx ux ny fy uy =>
      simp only [cmpPayloadWith, eqPayloadWith, cmpMsgParts, cmpSeq_eq_zero_iff,
        Bool.and_eq_true, decide_eq_true_eq]
      rw [lexOrd3_eq_zero_iff,
        lexCmpWith_eq_zero_iff (e := fun p q : Nat × Value =>
          decide (p.1 = q.1) && eqValueF n p.2 q.2) (fun p _ q _ => by
            simp only [cmpFieldEntry, cmpSeq_eq_zero_iff, ord3_eq_zero_iff,
              Bool.and_eq_true, decide_eq_true_eq]
            rw [ih p.2 q.2]),
        lexCmpWith_eq_zero_iff (e := eqUnknownEntry) (fun p _ q _ => by
          rw [cmpUnknownEntry_eq_zero_iff]
          simp [eqUnknownEntry])]
      tauto

/-- The value comparator returns `0` exactly on structurally equal values. -/
theorem cmpValue_eq_zero_iff {x y : Value} : cmpValue x y = 0 ↔ eqValue x y = true :=
  cmpValueF_eq_zero_iff _ x y

theorem eqValue_refl (x : Value) : eqValue x x = true :=
  cmpValue_eq_zero_iff.1 (isOrd3_cmpValue.refl x)

theorem boolCompare_eq_ord3 : ∀ x y : Bool, boolCompare x y = ord3 x y := by
  decide

theorem isOrd3_boolCompare : IsOrd3 boolCompare :=
  isOrd3_ext (fun x y => (boolCompare_eq_ord3 x y).symm) isOrd3_ord3

theorem compareBody_eq (gx gy : GoMessage) :
    compareBody gx gy =
      cmpSeq (boolCompare gx.valid gy.valid) (cmpValue (reflValue gx) (reflValue gy)) := by
  unfold compareBody cmpSeq
  by_cases h : boolCompare gx.valid gy.valid = 0 <;> simp [h]

theorem isOrd3_compareBody : IsOrd3 compareBody :=
  isOrd3_ext (fun gx gy => (compareBody_eq gx gy).symm)
    (isOrd3_c2lex (isOrd3_comp (fun g : GoMessage => g.valid) isOrd3_boolCompare)
      (isOrd3_comp reflValue isOrd3_cmpValue))

theorem ComparePlain_eq_rankThen : ∀ x y : Option GoMessage,
    ComparePlain x y = cmpSeq (ord3 (msgRank x) (msgRank y)) (msgPayload x y) := by
  intro x y
  cases x <;> cases y <;> rfl

theorem isOrd3_ComparePlain : IsOrd3 ComparePlain := by
  refine isOrd3_ext (fun x y => (ComparePlain_eq_rankThen x y).symm)
    (isOrd3_rankThen msgRank msgPayload ?_ ?_ ?_)
  · intro x y
    cases x <;> cases y <;>
      first | exact isOrd3_compareBody.antisym _ _ | simp [msgPayload]
  · intro x y
    cases x <;> cases y <;>
      first | exact isOrd3_compareBody.range _ _ | simp [msgPayload]
  · intro x y z hxy hyz h1 h2
    cases x <;> cases y <;> cases z
    all_goals try (exfalso; simp [msgRank] at hxy hyz; done)
    all_goals try (simp [msgPayload]; done)
    exact isOrd3_compareBody.letrans _ _ _ h1 h2

/-- Under the runtime invariants, the guarded `Compare` never panics and
returns exactly what the algorithm without the identity short-circuit
computes. -/
theorem Compare_eq_plain {x y : Option GoMessage} (h : GoodPairO x y) :
    Compare x y = some (ComparePlain x y) := by
  match x, y with
  | none, none => rfl
  | none, some g => rfl
  | some g, none => rfl
  | some gx, some gy =>
    have hg : GoodPair gx gy := h
    show (if gx.ty.isPtr = true then _ else _) = _
    by_cases hptr : gx.ty.isPtr = true
    · rw [if_pos hptr]
      have hcmp : gx.ty.comparable = true := hg.1 hptr
      show (match ifaceEq gx gy with
        | none => none
        | some true => some 0
        | some false => some (compareBody gx gy)) = some (ComparePlain (some gx) (some gy))
      unfold ifaceEq
      by_cases hty : gx.ty = gy.ty
      · rw [if_pos hty, if_pos hcmp]
        by_cases hobj : gx.objId = gy.objId
        · obtain ⟨hv, hr⟩ := hg.2 hty hobj
          rw [decide_eq_true hobj]
          show some 0 = some (compareBody gx gy)
          rw [compareBody_eq, hv, hr]
          rw [isOrd3_boolCompare.refl, isOrd3_cmpValue.refl]
          rfl
        · rw [decide_eq_false hobj]
          rfl
      · rw [if_neg hty]
        rfl
    · rw [if_neg hptr]
      rfl

theorem cmpSeq_zero_left (b : Int) : cmpSeq 0 b = b := by simp [cmpSeq]

theorem cmpSeq_zero_right (a : Int) : cmpSeq a 0 = a := by
  unfold cmpSeq; split <;> omega

theorem cmpSeq_of_ne {a : Int} (h : a ≠ 0) (b : Int) : cmpSeq a b = a := by
  simp [cmpSeq, h]

theorem boolCompare_eq_zero_iff {x y : Bool} : boolCompare x y = 0 ↔ x = y := by
  revert x y; decide

/-- Unfolding of the engine on two message values at explicit successor
fuel. -/
theorem cmpValueF_msg (n : Nat) (nm1 nm2 : List Nat) (fs1 fs2 : List (Nat × Value))
    (us1 us2 : List UnknownField) :
    cmpValueF (n + 1) (.msgV nm1 fs1 us1) (.msgV nm2 fs2 us2) =
      cmpSeq (lexCmpWith ord3 nm1 nm2)
        (cmpSeq (lexCmpWith (cmpFieldEntry (cmpValueF n)) fs1 fs2)
          (lexCmpWith cmpUnknownEntry us1 us2)) := by
  show cmpSeq (ord3 (kindRank (Value.msgV nm1 fs1 us1)) (kindRank (Value.msgV nm2 fs2 us2)))
    (cmpPayloadWith (cmpValueF n) (.msgV nm1 fs1 us1) (.msgV nm2 fs2 us2)) = _
  rw [show ord3 (kindRank (Value.msgV nm1 fs1 us1)) (kindRank (Value.msgV nm2 fs2 us2)) = 0 by
    simp [kindRank, ord3_eq_zero_iff]]
  rw [cmpSeq_zero_left]
  simp only [cmpPayloadWith, cmpMsgParts]

/-- The message comparator, expressed with the full-fuel comparator on the
field values: full type name first, then the present-field sequence
(ascending field numbers, value on number tie), then the undecoded-field
entries. -/
theorem cmpValue_msg_eq (nm1 nm2 : List Nat) (fs1 fs2 : List (Nat × Value))
    (us1 us2 : List UnknownField) :
    cmpValue (.msgV nm1 fs1 us1) (.msgV nm2 fs2 us2) =
      cmpSeq (lexCmpWith ord3 nm1 nm2)
        (cmpSeq (lexCmpWith (cmpFieldEntry cmpValue) fs1 fs2)
          (lexCmpWith cmpUnknownEntry us1 us2)) := by
  have hs1 := one_le_vsize (Value.msgV nm1 fs1 us1)
  have hs2 := one_le_vsize (Value.msgV nm2 fs2 us2)
  have h1 : vsize (Value.msgV nm1 fs1 us1) + vsize (Value.msgV nm2 fs2 us2) =
      (vsize (Value.msgV nm1 fs1 us1) + vsize (Value.msgV nm2 fs2 us2) - 1) + 1 := by
    omega
  show cmpValueF _ _ _ = _
  rw [h1, cmpValueF_msg]
  congr 2
  apply lexCmpWith_congr
  intro p hp q hq
  have hbp := vsize_lt_of_mem_fields nm1 us1 hp
  have hbq := vsize_lt_of_mem_fields nm2 us2 hq
  simp only [cmpFieldEntry]
  rw [cmpValueF_eq_cmpValue (by omega) (by omega)]

/-- Unfolding of the engine on two list values at explicit successor fuel. -/
theorem cmpValueF_list (n : Nat) (la lb : List Value) :
    cmpValueF (n + 1) (.listV la) (.listV lb) = cmpSeqLen (cmpValueF n) la lb := by
  show cmpSeq (ord3 (kindRank (Value.listV la)) (kindRank (Value.listV lb)))
    (cmpPayloadWith (cmpValueF n) (.listV la) (.listV lb)) = _
  rw [show ord3 (kindRank (Value.listV la)) (kindRank (Value.listV lb)) = 0 by
    simp [kindRank, ord3_eq_zero_iff]]
  rw [cmpSeq_zero_left]
  rfl

/-- The list comparator orders by length first, then pairwise by the value
comparator. -/
theorem cmpValue_list_eq (la lb : List Value) :
    cmpValue (.listV la) (.listV lb) = cmpSeqLen cmpValue la lb := by
  have hs1 := one_le_vsize (Value.listV la)
  have hs2 := one_le_vsize (Value.listV lb)
  have h1 : vsize (Value.listV la) + vsize (Value.listV lb) =
      (vsize (Value.listV la) + vsize (Value.listV lb) - 1) + 1 := by omega
  show cmpValueF _ _ _ = _
  rw [h1, cmpValueF_list]
  have hlex : lexCmpWith (cmpValueF
      (vsize (Value.listV la) + vsize (Value.listV lb) - 1)) la lb =
      lexCmpWith cmpValue la lb := by
    apply lexCmpWith_congr
    intro a ha b hb
    have hba := vsize_lt_of_mem_listV ha
    have hbb := vsize_lt_of_mem_listV hb
    exact cmpValueF_eq_cmpValue (by omega) (by omega)
  simp only [cmpSeqLen, hlex]

/-- Unfolding of the engine on two map values at explicit successor fuel. -/
theorem cmpValueF_map (n : Nat) (ea eb : List (Value × Value)) :
    cmpValueF (n + 1) (.mapV ea) (.mapV eb) =
      lexCmpWith (cmpMapEntry (cmpValueF n))
        (insertionSortBy (cmpEntryKey (cmpValueF n)) ea)
        (insertionSortBy (cmpEntryKey (cmpValueF n)) eb) := by
  show cmpSeq (ord3 (kindRank (Value.mapV ea)) (kindRank (Value.mapV eb)))
    (cmpPayloadWith (cmpValueF n) (.mapV ea) (.mapV eb)) = _
  rw [show ord3 (kindRank (Value.mapV ea)) (kindRank (Value.mapV eb)) = 0 by
    simp [kindRank, ord3_eq_zero_iff]]
  rw [cmpSeq_zero_left]
  rfl

/-- The map comparator canonicalizes both maps by sorting their entries by
key under the value order, then compares the sorted entry sequences
lexicographically, key first and value on key tie. -/
theorem cmpValue_map_eq (ea eb : List (Value × Value)) :
    cmpValue (.mapV ea) (.mapV eb) =
      lexCmpWith (cmpMapEntry cmpValue)
        (insertionSortBy (cmpEntryKey cmpValue) ea)
        (insertionSortBy (cmpEntryKey cmpValue) eb) := by
  have hs1 := one_le_vsize (Value.mapV ea)
  have hs2 := one_le_vsize (Value.mapV eb)
  have h1 : vsize (Value.mapV ea) + vsize (Value.mapV eb) =
      (vsize (Value.mapV ea) + vsize (Value.mapV eb) - 1) + 1 := by omega
  show cmpValueF _ _ _ = _
  rw [h1, cmpValueF_map]
  have hsort : ∀ (l : List (Value × Value)),
      vsize (Value.mapV l) ≤ vsize (Value.mapV ea) + vsize (Value.mapV eb) - 1 →
      insertionSortBy (cmpEntryKey (cmpValueF
        (vsize (Value.mapV ea) + vsize (Value.mapV eb) - 1))) l =
      insertionSortBy (cmpEntryKey cmpValue) l := by
    intro l hl
    apply insertionSortBy_congr
    intro p hp q hq
    have hbp := vsize_lt_of_mem_mapV hp
    have hbq := vsize_lt_of_mem_mapV hq
    simp only [cmpEntryKey]
    exact cmpValueF_eq_cmpValue (by omega) (by omega)
  rw [hsort ea (by omega), hsort eb (by omega)]
  apply lexCmpWith_congr
  intro p hp q hq
  have hbp := vsize_lt_of_mem_mapV (mem_insertionSortBy.1 hp)
  have hbq := vsize_lt_of_mem_mapV (mem_insertionSortBy.1 hq)
  simp only [cmpMapEntry]
  rw [cmpValueF_eq_cmpValue (by omega) (by omega),
    cmpValueF_eq_cmpValue (by omega) (by omega)]

/-- `Compare` of a handle with itself never reports "less": it is `0` via the
short-circuit or the full algorithm, or a panic when the handle's dynamic
type is an incomparable pointer type (impossible in Go). -/
theorem Compare_self (g : GoMessage) :
    Compare (some g) (some g) = some 0 ∨ Compare (some g) (some g) = none := by
  show (if g.ty.isPtr = true then _ else _) = _ ∨ (if g.ty.isPtr = true then _ else _) = _
  by_cases hptr : g.ty.isPtr = true
  · rw [if_pos hptr]
    unfold ifaceEq
    rw [if_pos rfl]
    by_cases hcmp : g.ty.comparable = true
    · rw [if_pos hcmp, decide_eq_true rfl]
      exact Or.inl rfl
    · rw [if_neg hcmp]
      exact Or.inr rfl
  · rw [if_neg hptr]
    left
    show some (compareBody g g) = some 0
    rw [isOrd3_compareBody.refl g]

theorem ifaceEq_symm (gx gy : GoMessage) : ifaceEq gx gy = ifaceEq gy gx := by
  unfold ifaceEq
  by_cases hty : gx.ty = gy.ty
  · rw [if_pos hty, if_pos hty.symm, hty]
    by_cases hcmp : gy.ty.comparable = true
    · rw [if_pos hcmp, if_pos hcmp]
      by_cases hobj : gx.objId = gy.objId
      · rw [decide_eq_true hobj, decide_eq_true hobj.symm]
      · rw [decide_eq_false hobj, decide_eq_false (fun hh => hobj hh.symm)]
    · rw [if_neg hcmp, if_neg hcmp]
  · rw [if_neg hty, if_neg (fun hh => hty hh.symm)]

theorem Compare_antisym (x y : Option GoMessage) :
    Compare x y = (Compare y x).map (fun r => -r) := by
  match x, y with
  | none, none => rfl
  | none, some g => rfl
  | some g, none => rfl
  | some gx, some gy =>
    have hbody : some (compareBody gx gy) =
        (some (compareBody gy gx)).map (fun r : Int => -r) := by
      show some (compareBody gx gy) = some (-(compareBody gy gx))
      rw [isOrd3_compareBody.antisym gx gy]
    show (if gx.ty.isPtr = true then _ else _) =
      ((if gy.ty.isPtr = true then _ else _ : Option Int).map _)
    by_cases hx : gx.ty.isPtr = true <;> by_cases hy : gy.ty.isPtr = true
    · rw [if_pos hx, if_pos hy, ifaceEq_symm gx gy]
      rcases h : ifaceEq gy gx with _ | b
      · rfl
      · cases b
        · exact hbody
        · rfl
    · -- gx pointer kind, gy not: the dynamic types differ
      have hty : gx.ty ≠ gy.ty := fun hh => by rw [hh] at hx; exact hy hx
      rw [if_pos hx, if_neg hy]
      have : ifaceEq gx gy = some false := by
        unfold ifaceEq
        rw [if_neg hty]
      rw [this]
      exact hbody
    · have hty : gy.ty ≠ gx.ty := fun hh => by rw [hh] at hy; exact hx hy
      rw [if_neg hx, if_pos hy]
      have : ifaceEq gy gx = some false := by
        unfold ifaceEq
        rw [if_neg hty]
      rw [this]
      exact hbody
    · rw [if_neg hx, if_neg hy]
      exact hbody

theorem cmpValue_float (a b : FloatV) : cmpValue (.floatV a) (.floatV b) = cmpFloat a b := rfl

theorem pairwise_ne_symm {α : Type _} {c : α → α → Int} (hanti : ∀ a b, c a b = -(c b a)) :
    ∀ {l : List α}, l.Pairwise (fun a b => c a b ≠ 0) →
      ∀ a ∈ l, ∀ b ∈ l, c a b = 0 → a = b := by
  intro l
  induction l with
  | nil => intro _ a ha; cases ha
  | cons p t ih =>
    intro h a ha b hb hab
    rcases List.mem_cons.1 ha with ha | ha <;> rcases List.mem_cons.1 hb with hb | hb
    · rw [ha, hb]
    · exfalso
      rw [ha] at hab
      exact ((List.pairwise_cons.1 h).1 b hb) hab
    · exfalso
      rw [hb] at hab
      have h1 := (List.pairwise_cons.1 h).1 a ha
      have h2 := hanti p a
      omega
    · exact ih (List.pairwise_cons.1 h).2 a ha b hb hab

theorem goodPair_of_ne_objId {gx gy : GoMessage}
    (h1 : gx.ty.isPtr = true → gx.ty.comparable = true)
    (h2 : gx.objId ≠ gy.objId) : GoodPair gx gy :=
  ⟨h1, fun _ hobj => absurd hobj h2⟩

theorem goodPair_of_ne_ty {gx gy : GoMessage}
    (h1 : gx.ty.isPtr = true → gx.ty.comparable = true)
    (h2 : gx.ty ≠ gy.ty) : GoodPair gx gy :=
  ⟨h1, fun hty _ => absurd hty h2⟩

/-- C1: for every pair of message handles satisfying the Go runtime
invariants, `Compare(x, y)` returns `0` if and only if the
structural-equality predicate (`proto.Equal`) holds for `x` and `y`. -/
theorem c1_compare_zero_iff_equal (x y : Option GoMessage) (h : GoodPairO x y) :
    Compare x y = some 0 ↔ protoEqual x y = true := by
  rw [Compare_eq_plain h]
  match x, y with
  | none, none => simp [ComparePlain, protoEqual]
  | none, some g => simp [ComparePlain, protoEqual]
  | some g, none => simp [ComparePlain, protoEqual]
  | some gx, some gy =>
    show some (compareBody gx gy) = some 0 ↔
      (decide (gx.valid = gy.valid) && eqValue (reflValue gx) (reflValue gy)) = true
    rw [Option.some_inj, compareBody_eq, cmpSeq_eq_zero_iff, boolCompare_eq_zero_iff,
      cmpValue_eq_zero_iff, Bool.and_eq_true, decide_eq_true_eq]

theorem c1_witness :
    (Compare (some handleX) (some handleY) = some 0 ↔
      protoEqual (some handleX) (some handleY) = true) :=
  c1_compare_zero_iff_equal (some handleX) (some handleY)
    (goodPair_of_ne_objId (fun _ => rfl) (by decide))

/-- C2: `LessThan(x, y)` is `Compare(x, y) == -1` and is a valid sort
predicate: it is irreflexive, `Compare` is antisymmetric
(`Compare(x,y) = -Compare(y,x)`), and the negation of `LessThan` is
transitive.  (Determinism is immediate: the model is a pure function.) -/
theorem c2_lessThan_sort_predicate (x y z : Option GoMessage)
    (hxy : GoodPairO x y) (hyz : GoodPairO y z) (hxz : GoodPairO x z) :
    LessThan x y = (Compare x y).map (fun r => decide (r = -1)) ∧
    LessThan x x ≠ some true ∧
    Compare x y = (Compare y x).map (fun r => -r) ∧
    (LessThan x y ≠ some true → LessThan y z ≠ some true →
      LessThan x z ≠ some true) := by
  refine ⟨rfl, ?_, Compare_antisym x y, ?_⟩
  · cases x with
    | none => simp [LessThan, Compare, boolCompare]
    | some g => rcases Compare_self g with h | h <;> simp [LessThan, h]
  · intro h1 h2
    unfold LessThan at h1 h2 ⊢
    rw [Compare_eq_plain hxy] at h1
    rw [Compare_eq_plain hyz] at h2
    rw [Compare_eq_plain hxz]
    have g1 : ComparePlain x y ≠ -1 := by
      intro hc; exact h1 (by simp [hc])
    have g2 : ComparePlain y z ≠ -1 := by
      intro hc; exact h2 (by simp [hc])
    intro hc
    have g3 : ComparePlain x z = -1 := by simpa using hc
    have a1 := isOrd3_ComparePlain.antisym x y
    have a2 := isOrd3_ComparePlain.antisym y z
    have a3 := isOrd3_ComparePlain.antisym x z
    have r1 := isOrd3_ComparePlain.range x y
    have r2 := isOrd3_ComparePlain.range y z
    have t := isOrd3_ComparePlain.letrans z y x (by omega) (by omega)
    omega

theorem c2_witness :
    LessThan (some handleX) (some handleX) ≠ some true :=
  (c2_lessThan_sort_predicate (some handleX) (some handleY) (some handleInv)
    (goodPair_of_ne_objId (fun _ => rfl) (by decide))
    (goodPair_of_ne_objId (fun _ => rfl) (by decide))
    (goodPair_of_ne_objId (fun _ => rfl) (by decide))).2.1

/-- C3: the validity tiers are ordered strictly — a nil handle compares less
than any present handle (even an invalid one), an invalid handle compares
less than every valid message (including a valid empty one), and two nil
handles compare equal. -/
theorem c3_validity_tiers (g h2 : GoMessage) (hgp : GoodPair g h2)
    (hinv : g.valid = false) (hval : h2.valid = true) :
    Compare none none = some 0 ∧
    Compare none (some g) = some (-1) ∧
    Compare (some g) none = some 1 ∧
    Compare (some g) (some h2) = some (-1) ∧
    Compare (some h2) (some g) = some 1 := by
  have h4 : Compare (some g) (some h2) = some (-1) := by
    rw [Compare_eq_plain (show GoodPairO (some g) (some h2) from hgp)]
    show some (compareBody g h2) = some (-1)
    rw [compareBody_eq, hinv, hval]
    rw [show boolCompare false true = -1 from rfl, cmpSeq_of_ne (by decide)]
  refine ⟨rfl, rfl, rfl, h4, ?_⟩
  rw [Compare_antisym (some h2) (some g), h4]
  rfl

theorem c3_witness : Compare (some handleInv) (some handleX) = some (-1) :=
  (c3_validity_tiers handleInv handleX
    (goodPair_of_ne_objId (fun _ => rfl) (by decide)) rfl rfl).2.2.2.1

/-- C4 counterexample: on `x = {optionalInt32: 1}` (field 1) and
`y = {optionalInt64: 1}` (field 2), the claim's union-walk presence rule
says `y` lacks field 1 and is therefore strictly less, i.e. the comparison
should return `1`; but the code (pinned by `compare_test.go` lines 160-169)
returns `-1` — the message owning the lower-numbered field is *less*. -/
theorem c4_counterexample :
    specFieldWalk cmpValue [(1, Value.intV 1)] [(2, Value.intV 1)] = 1 ∧
    Compare (some handleX) (some handleY) = some (-1) ∧
    ((-1 : Int) ≠ 1) := by
  refine ⟨by decide, by decide, by decide⟩

/-- C4 (amended): the message comparator compares the two ascending-sorted
present-field sequences lexicographically as (field number, value) pairs:
a message whose field sequence is a strict initial segment of the other's
is less, regardless of the extra field's value (even the type's zero value);
at the first position where field numbers differ, the message owning the
smaller-numbered field is less; at a shared field number, the first nonzero
value comparison decides; and for
`M1 = {optionalInt32: -1, optionalInt64: 1}`,
`M2 = {optionalInt32: 1, optionalInt64: -1}`, `Compare(M1, M2) = -1` because
the lower-numbered field is reached first and decides. -/
theorem c4_field_walk_amended (nm : List Nat) (us : List UnknownField)
    (pre xs ys rest fs : List (Nat × Value)) (a b n : Nat) (va vb wa wb : Value)
    (hab : a < b) (hvw : cmpValue wa wb ≠ 0) :
    cmpValue (.msgV nm fs us) (.msgV nm (fs ++ (n, va) :: rest) us) = -1 ∧
    cmpValue (.msgV nm (pre ++ (a, va) :: xs) us)
      (.msgV nm (pre ++ (b, vb) :: ys) us) = -1 ∧
    cmpValue (.msgV nm (pre ++ (n, wa) :: xs) us)
      (.msgV nm (pre ++ (n, wb) :: ys) us) = cmpValue wa wb ∧
    cmpValue (.msgV [65] [(1, Value.intV (-1)), (2, Value.intV 1)] [])
      (.msgV [65] [(1, Value.intV 1), (2, Value.intV (-1))] []) = -1 ∧
    Compare (some handleM1) (some handleM2) = some (-1) := by
  have hnm : lexCmpWith ord3 nm nm = 0 := (isOrd3_lexCmpWith isOrd3_ord3).refl nm
  have hre : ∀ p : Nat × Value, cmpFieldEntry cmpValue p p = 0 :=
    (isOrd3_cmpFieldEntry isOrd3_cmpValue).refl
  refine ⟨?_, ?_, ?_, by decide, by decide⟩
  · rw [cmpValue_msg_eq, hnm, cmpSeq_zero_left,
      lexCmpWith_self_append_cons hre fs (n, va) rest, cmpSeq_of_ne (by decide)]
  · have helem : cmpFieldEntry cmpValue (a, va) (b, vb) = -1 := by
      show cmpSeq (ord3 a b) (cmpValue va vb) = -1
      rw [ord3_eq_neg_one_iff.2 hab, cmpSeq_of_ne (by decide)]
    rw [cmpValue_msg_eq, hnm, cmpSeq_zero_left,
      lexCmpWith_append_diff hre (by rw [helem]; decide) pre, helem,
      cmpSeq_of_ne (by decide)]
  · have helem : cmpFieldEntry cmpValue (n, wa) (n, wb) = cmpValue wa wb := by
      show cmpSeq (ord3 n n) (cmpValue wa wb) = cmpValue wa wb
      rw [isOrd3_ord3.refl n, cmpSeq_zero_left]
    rw [cmpValue_msg_eq, hnm, cmpSeq_zero_left,
      lexCmpWith_append_diff hre (by rw [helem]; exact hvw) pre, helem,
      cmpSeq_of_ne hvw]

theorem c4_witness :
    cmpValue (.msgV [65] [(1, Value.intV 1)] [])
      (.msgV [65] [(2, Value.intV 1)] []) = -1 :=
  (c4_field_walk_amended [65] [] [] [] [] [] [] 1 2 3 (Value.intV 1) (Value.intV 1)
    (Value.intV 0) (Value.intV 1) (by decide) (by decide)).2.1

/-- C5: the floating-point total order makes NaN equal to NaN and strictly
less than every other value (including negative infinity), while non-NaN
values compare by ordinary IEEE ordering; consequently two messages holding
NaN in the same float field compare equal, and a message holding NaN
compares less than one holding 0 there. -/
theorem c5_float_nan_total_order (f : FloatV) (hf : f ≠ FloatV.nan)
    (q r : ℚ) (nm : List Nat) (n : Nat) :
    cmpFloat .nan .nan = 0 ∧
    cmpFloat .nan f = -1 ∧
    cmpFloat .nan .negInf = -1 ∧
    cmpFloat .negInf (.finite q) = -1 ∧
    cmpFloat (.finite q) .posInf = -1 ∧
    cmpFloat (.finite q) (.finite r) = ord3 q r ∧
    cmpValue (.msgV nm [(n, .floatV .nan)] []) (.msgV nm [(n, .floatV .nan)] []) = 0 ∧
    cmpValue (.msgV nm [(n, .floatV .nan)] [])
      (.msgV nm [(n, .floatV (.finite 0))] []) = -1 ∧
    Compare (some handleNaN) (some handleNaN2) = some 0 ∧
    Compare (some handleNaN) (some handleZero) = some (-1) := by
  have hnm : lexCmpWith ord3 nm nm = 0 := (isOrd3_lexCmpWith isOrd3_ord3).refl nm
  have hre : ∀ p : Nat × Value, cmpFieldEntry cmpValue p p = 0 :=
    (isOrd3_cmpFieldEntry isOrd3_cmpValue).refl
  refine ⟨rfl, ?_, rfl, ?_, ?_, ?_, isOrd3_cmpValue.refl _, ?_, by decide, by decide⟩
  · cases f with
    | nan => exact absurd rfl hf
    | negInf => rfl
    | finite q2 => rfl
    | posInf => rfl
  · show cmpSeq (ord3 (1 : Nat) 2) 0 = -1
    rfl
  · show cmpSeq (ord3 (2 : Nat) 3) 0 = -1
    rfl
  · show cmpSeq (ord3 (2 : Nat) 2) (ord3 q r) = ord3 q r
    rw [show ord3 (2 : Nat) 2 = 0 from rfl, cmpSeq_zero_left]
  · have helem : cmpFieldEntry cmpValue (n, Value.floatV .nan)
        (n, Value.floatV (.finite 0)) = -1 := by
      show cmpSeq (ord3 n n) (cmpValue (.floatV .nan) (.floatV (.finite 0))) = -1
      rw [isOrd3_ord3.refl n, cmpSeq_zero_left, cmpValue_float]
      decide
    have hlist : lexCmpWith (cmpFieldEntry cmpValue)
        [(n, Value.floatV .nan)] [(n, Value.floatV (.finite 0))] = -1 := by
      simp only [lexCmpWith]
      rw [if_neg (by rw [helem]; decide)]
      exact helem
    rw [cmpValue_msg_eq, hnm, cmpSeq_zero_left, hlist, cmpSeq_of_ne (by decide)]

theorem c5_witness : cmpFloat .nan .posInf = -1 :=
  (c5_float_nan_total_order FloatV.posInf (by decide) 0 0 [] 0).2.1

/-- C6 counterexample: on the lists `[7]` and `[1, 2]`, the claim's rule —
compare pairwise at increasing index and return the sign of the first
differing pair, with the shorter-list rule applying only to a strict
prefix — returns the sign of `7` versus `1`, that is `1`; but the code
(pinned by `compare_test.go` lines 1657-1666) returns `-1`: the list with
fewer elements is less regardless of element values. -/
theorem c6_counterexample :
    lexCmpWith cmpValue [Value.intV 7] [Value.intV 1, Value.intV 2] = 1 ∧
    cmpValue (.listV [.intV 7]) (.listV [.intV 1, .intV 2]) = -1 ∧
    ((-1 : Int) ≠ 1) := by
  refine ⟨by decide, by decide, by decide⟩

/-- C6 (amended): list comparison orders by length first — the list with
fewer elements is strictly less, regardless of element values, so in
particular a strict prefix is less — and two lists of equal length are
compared lexicographically, pairwise at increasing index with the first
differing pair deciding; two lists compare equal exactly when they have
equal length and every element pair compares equal. -/
theorem c6_list_length_then_lex (la lb lc ld xs ys pre : List Value) (x y : Value)
    (hlen : la.length < lb.length) (hxy : cmpValue x y ≠ 0)
    (htail : xs.length = ys.length) :
    cmpValue (.listV la) (.listV lb) = -1 ∧
    cmpValue (.listV (pre ++ x :: xs)) (.listV (pre ++ y :: ys)) = cmpValue x y ∧
    (cmpValue (.listV lc) (.listV ld) = 0 ↔
      lc.length = ld.length ∧ ∀ p ∈ lc.zip ld, cmpValue p.1 p.2 = 0) ∧
    cmpValue (.listV [.intV 1]) (.listV [.intV 1, .intV 2]) = -1 ∧
    cmpValue (.listV [.intV 1, .intV 2, .intV 3])
      (.listV [.intV 1, .intV 3, .intV 2]) = -1 ∧
    cmpValue (.listV [.intV 7]) (.listV [.intV 1, .intV 2]) = -1 := by
  refine ⟨?_, ?_, ?_, by decide, by decide, by decide⟩
  · rw [cmpValue_list_eq]
    show cmpSeq (ord3 la.length lb.length) _ = -1
    rw [ord3_eq_neg_one_iff.2 hlen, cmpSeq_of_ne (by decide)]
  · rw [cmpValue_list_eq]
    show cmpSeq (ord3 (pre ++ x :: xs).length (pre ++ y :: ys).length) _ = _
    rw [show (pre ++ x :: xs).length = (pre ++ y :: ys).length by
      simp [List.length_append, htail]]
    rw [isOrd3_ord3.refl, cmpSeq_zero_left]
    exact lexCmpWith_append_diff isOrd3_cmpValue.refl hxy pre
  · rw [cmpValue_list_eq]
    show cmpSeq (ord3 lc.length ld.length) _ = 0 ↔ _
    rw [cmpSeq_eq_zero_iff, ord3_eq_zero_iff, lexCmpWith_zero_iff_forall]
    tauto

theorem c6_witness :
    cmpValue (.listV []) (.listV [Value.intV 7]) = -1 :=
  (c6_list_length_then_lex [] [Value.intV 7] [] [] [] [] [] (Value.intV 0)
    (Value.intV 1) (by decide) (by decide) rfl).1

/-- C7: map comparison canonicalizes both maps by sorting their entries by
key under the value order and then compares the sorted entry sequences
lexicographically (key first, value only on key tie, fewer entries less once
the shared sorted prefix ties); the result is invariant under permuting the
physical entry order of either map. -/
theorem c7_map_canonicalization (ea ea2 eb : List (Value × Value))
    (hperm : ea.Perm ea2)
    (hkeys : ea.Pairwise (fun p q => cmpValue p.1 q.1 ≠ 0)) :
    cmpValue (.mapV ea) (.mapV eb) =
      lexCmpWith (cmpMapEntry cmpValue)
        (insertionSortBy (cmpEntryKey cmpValue) ea)
        (insertionSortBy (cmpEntryKey cmpValue) eb) ∧
    cmpValue (.mapV ea) (.mapV eb) = cmpValue (.mapV ea2) (.mapV eb) ∧
    cmpValue (.mapV eb) (.mapV ea) = cmpValue (.mapV eb) (.mapV ea2) ∧
    cmpValue (.mapV [(.intV 1, .intV 2)]) (.mapV [(.intV 3, .intV 4)]) = -1 ∧
    cmpValue (.mapV [(.intV 1, .intV 2)])
      (.mapV [(.intV 1, .intV 2), (.intV 3, .intV 4)]) = -1 ∧
    cmpValue (.mapV [(.intV 3, .intV 4), (.intV 1, .intV 2)])
      (.mapV [(.intV 1, .intV 2), (.intV 3, .intV 4)]) = 0 ∧
    cmpValue (.mapV [(.intV 1, .intV 2), (.intV 3, .intV 4)])
      (.mapV [(.intV 1, .intV 2)]) = 1 := by
  have hck : IsOrd3 (cmpEntryKey cmpValue) := isOrd3_cmpEntryKey isOrd3_cmpValue
  have hsorteq : insertionSortBy (cmpEntryKey cmpValue) ea =
      insertionSortBy (cmpEntryKey cmpValue) ea2 := by
    apply sorted_perm_eq hck
    · intro p hp q hq hpq
      exact pairwise_ne_symm (c := fun p q : Value × Value => cmpValue p.1 q.1)
        (fun a b => isOrd3_cmpValue.antisym a.1 b.1) hkeys
        p (mem_insertionSortBy.1 hp) q (mem_insertionSortBy.1 hq) hpq
    · exact (insertionSortBy_perm _ ea).trans
        (hperm.trans (insertionSortBy_perm _ ea2).symm)
    · exact insertionSortBy_pairwise hck ea
    · exact insertionSortBy_pairwise hck ea2
  have h2 : cmpValue (.mapV ea) (.mapV eb) = cmpValue (.mapV ea2) (.mapV eb) := by
    rw [cmpValue_map_eq, cmpValue_map_eq, hsorteq]
  refine ⟨cmpValue_map_eq ea eb, h2, ?_, by decide, by decide, by decide, by decide⟩
  have a1 := isOrd3_cmpValue.antisym (.mapV eb) (.mapV ea)
  have a2 := isOrd3_cmpValue.antisym (.mapV eb) (.mapV ea2)
  omega

theorem c7_witness :
    cmpValue (.mapV [(Value.intV 5, Value.intV 6), (Value.intV 1, Value.intV 2)])
      (.mapV [(Value.intV 1, Value.intV 2)]) =
    cmpValue (.mapV [(Value.intV 1, Value.intV 2), (Value.intV 5, Value.intV 6)])
      (.mapV [(Value.intV 1, Value.intV 2)]) :=
  (c7_map_canonicalization
    [(Value.intV 5, Value.intV 6), (Value.intV 1, Value.intV 2)]
    [(Value.intV 1, Value.intV 2), (Value.intV 5, Value.intV 6)]
    [(Value.intV 1, Value.intV 2)]
    (List.Perm.swap _ _ _) (by decide)).2.1

/-- C8: undecoded (unknown) field entries compare by ascending field number;
on a number tie, by ascending wire-category rank with
`varint < fixed32 < fixed64 < lengthDelimited < group`; on a further tie, by
byte-wise payload comparison with the shorter-payload-is-less rule; and,
after all known fields tie, a message with no undecoded entries compares
less than an otherwise-equal message with at least one such entry. -/
theorem c8_unknown_field_order (e1 f1 e2 f2 e3 f3 : UnknownField) (nm : List Nat)
    (fs : List (Nat × Value)) (u : UnknownField) (us : List UnknownField)
    (p : List Nat) (b : Nat) (bs : List Nat)
    (h1 : e1.num < f1.num)
    (h2a : e2.num = f2.num) (h2b : wireRank e2.wire < wireRank f2.wire)
    (h3a : e3.num = f3.num) (h3b : e3.wire = f3.wire) :
    cmpUnknownEntry e1 f1 = -1 ∧
    cmpUnknownEntry e2 f2 = -1 ∧
    cmpUnknownEntry e3 f3 = lexCmpWith ord3 e3.payload f3.payload ∧
    lexCmpWith ord3 p (p ++ b :: bs) = -1 ∧
    (wireRank .varint = 0 ∧ wireRank .fixed32 = 1 ∧ wireRank .fixed64 = 2 ∧
      wireRank .lengthDelimited = 3 ∧ wireRank .group = 4) ∧
    cmpValue (.msgV nm fs []) (.msgV nm fs (u :: us)) = -1 ∧
    Compare (some handleUnk1) (some handleUnk2) = some (-1) := by
  refine ⟨?_, ?_, ?_, ?_, by decide, ?_, by decide⟩
  · show cmpSeq (ord3 e1.num f1.num) _ = -1
    rw [ord3_eq_neg_one_iff.2 h1, cmpSeq_of_ne (by decide)]
  · show cmpSeq (ord3 e2.num f2.num) (cmpSeq (ord3 (wireRank e2.wire) (wireRank f2.wire)) _) = -1
    rw [ord3_eq_zero_iff.2 h2a, cmpSeq_zero_left,
      ord3_eq_neg_one_iff.2 h2b, cmpSeq_of_ne (by decide)]
  · show cmpSeq (ord3 e3.num f3.num) (cmpSeq (ord3 (wireRank e3.wire) (wireRank f3.wire)) _) = _
    rw [ord3_eq_zero_iff.2 h3a, cmpSeq_zero_left,
      ord3_eq_zero_iff.2 (by rw [h3b]), cmpSeq_zero_left]
  · exact lexCmpWith_self_append_cons (fun a => isOrd3_ord3.refl a) p b bs
  · rw [cmpValue_msg_eq, (isOrd3_lexCmpWith isOrd3_ord3).refl nm, cmpSeq_zero_left,
      (isOrd3_lexCmpWith (isOrd3_cmpFieldEntry isOrd3_cmpValue)).refl fs,
      cmpSeq_zero_left]
    rfl

theorem c8_witness :
    cmpUnknownEntry ⟨1000, .varint, [1]⟩ ⟨100000, .varint, [1]⟩ = -1 :=
  (c8_unknown_field_order ⟨1000, .varint, [1]⟩ ⟨100000, .varint, [1]⟩
    ⟨7, .varint, []⟩ ⟨7, .fixed32, []⟩ ⟨7, .group, [2]⟩ ⟨7, .group, [3]⟩
    [] [] ⟨1, .varint, []⟩ [] [] 0 []
    (by decide) rfl (by decide) rfl rfl).1

/-- C9: the reference-identity short-circuit is guarded by a pointer-kind
check on the first argument, so `Compare` never panics — on non-pointer
representations (such as struct-embedded incomparable wrappers) the
identity check is skipped entirely — and the short-circuit never changes the
result: under the Go runtime invariants `Compare` returns exactly what the
algorithm without the short-circuit computes, and identical inputs yield
`0`, which is also what the full algorithm computes. -/
theorem c9_identity_shortcircuit (x y : Option GoMessage) (h : GoodPairO x y)
    (g w1 w2 : GoMessage) (hgptr : g.ty.isPtr = true → g.ty.comparable = true)
    (hw : w1.ty.isPtr = false) :
    Compare x y = some (ComparePlain x y) ∧
    Compare (some w1) (some w2) = some (compareBody w1 w2) ∧
    Compare (some g) (some g) = some 0 ∧
    ComparePlain (some g) (some g) = 0 := by
  refine ⟨Compare_eq_plain h, ?_, ?_, isOrd3_compareBody.refl g⟩
  · show (if w1.ty.isPtr = true then _ else _) = _
    rw [if_neg (by simp [hw])]
  · by_cases hptr : g.ty.isPtr = true
    · show (if g.ty.isPtr = true then _ else _) = _
      rw [if_pos hptr]
      unfold ifaceEq
      rw [if_pos rfl, if_pos (hgptr hptr), decide_eq_true rfl]
    · show (if g.ty.isPtr = true then _ else _) = _
      rw [if_neg hptr]
      rw [isOrd3_compareBody.refl g]

theorem c9_witness : Compare (some handleX) (some handleX) = some 0 :=
  (c9_identity_shortcircuit (some handleX) (some handleY)
    (goodPair_of_ne_objId (fun _ => rfl) (by decide))
    handleX ⟨⟨9, false, false⟩, 20, true, [66], [], []⟩
    ⟨⟨9, false, false⟩, 21, true, [66], [], []⟩
    (fun _ => rfl) rfl).2.2.1

/-- C10: two non-nil but invalid handles do not in general compare equal —
after the validity comparison ties, the full value comparison runs and
orders the two reflected (empty, field-less) messages by their full type
names; in particular
`Compare((*TestAllTypes)(nil), (*TestAllExtensions)(nil)) = 1 ≠ 0`. -/
theorem c10_invalid_typed_nils (gx gy : GoMessage) (h : GoodPair gx gy)
    (hx : gx.valid = false) (hy : gy.valid = false)
    (hfx : gx.reflFields = []) (hfy : gy.reflFields = [])
    (hux : gx.reflUnknown = []) (huy : gy.reflUnknown = []) :
    Compare (some gx) (some gy) = some (lexCmpWith ord3 gx.reflName gy.reflName) ∧
    Compare (some nilTestAllTypes) (some nilTestAllExtensions) = some 1 ∧
    ((1 : Int) ≠ 0) := by
  refine ⟨?_, by decide, by decide⟩
  rw [Compare_eq_plain (show GoodPairO (some gx) (some gy) from h)]
  show some (compareBody gx gy) = _
  rw [compareBody_eq, hx, hy, show boolCompare false false = 0 from rfl,
    cmpSeq_zero_left]
  show some (cmpValue (.msgV gx.reflName gx.reflFields gx.reflUnknown)
    (.msgV gy.reflName gy.reflFields gy.reflUnknown)) = _
  rw [hfx, hfy, hux, huy, cmpValue_msg_eq]
  rw [show lexCmpWith (cmpFieldEntry cmpValue)
    ([] : List (Nat × Value)) [] = 0 from rfl]
  rw [show lexCmpWith cmpUnknownEntry ([] : List UnknownField) [] = 0 from rfl,
    cmpSeq_zero_left, cmpSeq_zero_right]

theorem c10_witness :
    Compare (some nilTestAllTypes) (some nilTestAllExtensions) =
      some (lexCmpWith ord3 nilTestAllTypes.reflName nilTestAllExtensions.reflName) :=
  (c10_invalid_typed_nils nilTestAllTypes nilTestAllExtensions
    (goodPair_of_ne_ty (fun _ => rfl) (by decide))
    rfl rfl rfl rfl rfl rfl).1

end Pb

